import Mathlib

/-
Verification model of the claude-compte ingestion pipeline
(src/claude_compte/parser.py).

Modelling conventions:
- JSON records are embedded as Lean structures; a JSON line that fails to
  parse (or is blank) is `none`.
- Python `str` timestamps are `String`s compared lexicographically by code
  point (`strLE` below), exactly as Python compares `str` values.
- Python dicts (which are insertion-ordered and update-in-place) are
  embedded as association lists with `insertLWW` / `updateAList`.
- Monetary cost is modelled in fixed units of 10^-8 dollars, in which every
  rate of the source pricing table is an integer; Python float arithmetic
  is idealized as exact arithmetic on these values.
- Filesystem reads are explicit inputs: a file is its list of parsed lines,
  a scan input is a list of files; `none` stands for an OS-level exception.
-/

/- Python-style truthiness for optional strings: None and "" are falsy. -/
def pyStr : Option String → Option String
  | none => none
  | some s => if s = "" then none else some s

/- Lexicographic comparison of char lists by code point, Python `<=`. -/
def charListLE : List Char → List Char → Bool
  | [], _ => true
  | _ :: _, [] => false
  | a :: as, b :: bs => if a < b then true else if b < a then false else charListLE as bs

def strLE (a b : String) : Bool := charListLE a.data b.data

/- `needle` is a leading run of `hay` (Python str.startswith). -/
def hasLead : List Char → List Char → Bool
  | [], _ => true
  | _ :: _, [] => false
  | a :: as, b :: bs => a == b && hasLead as bs

/- Python `needle in hay` substring test. -/
def containsSub (needle : List Char) : List Char → Bool
  | [] => hasLead needle []
  | c :: rest => hasLead needle (c :: rest) || containsSub needle rest

def strContains (s sub : String) : Bool := containsSub sub.data s.data

def strHasLead (s lead : String) : Bool := hasLead lead.data s.data

def strLower (s : String) : String := ⟨s.data.map Char.toLower⟩

/- Python s[:n] (by characters). -/
def strTake (s : String) (n : Nat) : String := ⟨s.data.take n⟩

/- Python ts.split("T")[0]: the part before the first literal T. -/
def dateOf (ts : String) : String := ⟨ts.data.takeWhile (fun c => c != 'T')⟩

/- Python str.strip(): drop whitespace from both ends. -/
def strStrip (s : String) : String :=
  ⟨((s.data.dropWhile Char.isWhitespace).reverse.dropWhile Char.isWhitespace).reverse⟩

/- Python "\n".join(parts). -/
def joinNL (parts : List String) : String :=
  ⟨List.intercalate [Char.ofNat 10] (parts.map String.data)⟩

/- Per-token rates, in units of 10^-8 dollars (source: MODEL_PRICING). -/
structure Pricing where
  input : Nat
  output : Nat
  cacheWrite : Nat
  cacheRead : Nat
deriving DecidableEq

/- The source MODEL_PRICING dict, as a lookup on its keys.  The source only
   ever reads keys present in the dict; the catch-all branch is unreachable
   in source usage. -/
def MODEL_PRICING (k : String) : Pricing :=
  if k = "opus-4.5" then ⟨500, 2500, 625, 50⟩
  else if k = "opus-4.6" then ⟨500, 2500, 625, 50⟩
  else if k = "opus-4.0" then ⟨1500, 7500, 1875, 150⟩
  else if k = "opus-4.1" then ⟨1500, 7500, 1875, 150⟩
  else if k = "sonnet" then ⟨300, 1500, 375, 30⟩
  else if k = "haiku-4.5" then ⟨100, 500, 125, 10⟩
  else if k = "haiku-3.5" then ⟨80, 400, 100, 8⟩
  else ⟨300, 1500, 375, 30⟩

def get_pricing (model : Option String) : Pricing :=
  match model with
  | none => MODEL_PRICING "sonnet"
  | some s =>
    if s = "" then MODEL_PRICING "sonnet"
    else
      let m := strLower s
      if strContains m "opus" then
        if strContains m "4-6" || strContains m "4.6" then MODEL_PRICING "opus-4.6"
        else if strContains m "4-5" || strContains m "4.5" then MODEL_PRICING "opus-4.5"
        else if strContains m "4-1" || strContains m "4.1" then MODEL_PRICING "opus-4.1"
        else MODEL_PRICING "opus-4.0"
      else if strContains m "sonnet" then MODEL_PRICING "sonnet"
      else if strContains m "haiku" then
        if strContains m "4-5" || strContains m "4.5" then MODEL_PRICING "haiku-4.5"
        else MODEL_PRICING "haiku-3.5"
      else MODEL_PRICING "sonnet"

/- Token usage counts of one assistant message (usage.get(..., 0) defaults
   already applied).  `none` at the use site stands for an absent or empty
   usage dict (both are falsy in Python). -/
structure Usage where
  input_tokens : Nat
  cache_creation_input_tokens : Nat
  cache_read_input_tokens : Nat
  output_tokens : Nat
deriving DecidableEq

/- One content block; `type` is block.get("type") with absent mapped to "". -/
structure Block where
  type : String
  text : Option String
  name : Option String
deriving DecidableEq

/- The message "content" field: a string, a list of blocks, or anything
   else (including absent), which the source treats uniformly. -/
inductive Content where
  | str (s : String)
  | blocks (bs : List Block)
  | other
deriving DecidableEq

structure Msg where
  role : Option String
  id : Option String
  model : Option String
  usage : Option Usage
  content : Content
deriving DecidableEq

/- One JSON line of a session log.  `message = none` stands for an absent
   or empty (falsy) message body. -/
structure RawEntry where
  isSidechain : Bool
  type : String
  message : Option Msg
  timestamp : Option String
  uuid : Option String
  isMeta : Bool
deriving DecidableEq

structure Query where
  messageId : Option String
  userPrompt : Option String
  userTimestamp : Option String
  assistantTimestamp : Option String
  model : String
  inputTokens : Nat
  cacheCreationTokens : Nat
  cacheReadTokens : Nat
  outputTokens : Nat
  totalTokens : Nat
  cost : Nat
  tools : List String
  hasThinking : Bool
deriving DecidableEq

structure Parsed where
  assistantEntries : List RawEntry
  userMessages : List RawEntry
deriving DecidableEq

/- Insertion-ordered, update-in-place map write: Python `d[k] = v`. -/
def insertLWW {α : Type} (k : String) (v : α) : List (String × α) → List (String × α)
  | [] => [(k, v)]
  | (k2, v2) :: rest => if k2 = k then (k, v) :: rest else (k2, v2) :: insertLWW k v rest

/- Python `d[k]` / `k in d`. -/
def lookupA {α : Type} (k : String) : List (String × α) → Option α
  | [] => none
  | (k2, v) :: rest => if k2 = k then some v else lookupA k rest

def keysOf {α : Type} (m : List (String × α)) : List String := m.map (·.1)

/- Python `if k not in d: d[k] = zero` followed by in-place updates of d[k]. -/
def updateAList {α : Type} (k : String) (upd : α → α) (zero : α) : List (String × α) → List (String × α)
  | [] => [(k, upd zero)]
  | (k2, v) :: rest => if k2 = k then (k2, upd v) :: rest else (k2, v) :: updateAList k upd zero rest

/- One processing step of the line loop of parse_jsonl_file (source lines
   76-99).  State: (message_map, user_messages). -/
def parseStep (st : List (String × RawEntry) × List RawEntry) (l : Option RawEntry) :
    List (String × RawEntry) × List RawEntry :=
  match l with
  | none => st
  | some e =>
    if e.isSidechain then st
    else if e.type = "user" ∨ e.type = "assistant" then
      match e.message with
      | none => st
      | some m =>
        let st1 := if e.type = "user" ∧ m.role = some "user" then (st.1, st.2 ++ [e]) else st
        if e.type = "assistant" then
          match pyStr m.id with
          | some i => (insertLWW i e st1.1, st1.2)
          | none => st1
        else st1
    else st

def parseFold (lines : List (Option RawEntry)) : List (String × RawEntry) × List RawEntry :=
  lines.foldl parseStep ([], [])

/- parse_jsonl_file: the input file is its list of parsed lines (a `none`
   line is blank or malformed JSON, which the source skips). -/
def parse_jsonl_file (lines : List (Option RawEntry)) : Parsed :=
  ⟨(parseFold lines).1.map (·.2), (parseFold lines).2⟩

/- The stream of (message id, entry) pairs that reach the assistant
   deduplication map, in file order. -/
def keptAssistants (lines : List (Option RawEntry)) : List (String × RawEntry) :=
  lines.filterMap fun l =>
    match l with
    | none => none
    | some e =>
      if e.isSidechain then none
      else if e.type = "assistant" then
        match e.message with
        | some m => (pyStr m.id).map (fun i => (i, e))
        | none => none
      else none

/- One element of the filtered user timeline of extract_session_data. -/
structure TimelineItem where
  text : Option String
  timestamp : Option String
  uuid : Option String
deriving DecidableEq

/- Source lines 108-127: the display-eligibility filter and text
   extraction over user messages. -/
def timelineItem (e : RawEntry) : Option TimelineItem :=
  if e.isMeta then none
  else
    let content := match e.message with
      | some m => m.content
      | none => Content.other
    match content with
    | Content.str s =>
      if strHasLead s "<local-command" || strHasLead s "<command-name" then none
      else some ⟨pyStr (some s), e.timestamp, e.uuid⟩
    | Content.blocks bs =>
      some ⟨pyStr (some (strStrip (joinNL (bs.filterMap fun b =>
        if b.type = "text" then some (b.text.getD "") else none)))), e.timestamp, e.uuid⟩
    | Content.other => some ⟨none, e.timestamp, e.uuid⟩

def timelineOf (userMessages : List RawEntry) : List TimelineItem :=
  userMessages.filterMap timelineItem

/- The cursor-advance while loop of source lines 142-148.  The loop runs at
   most tl.length times; extract_session_data calls it with that fuel. -/
def advanceIdx (tl : List TimelineItem) (ats : Option String) : Nat → Nat → Nat
  | i, 0 => i
  | i, fuel + 1 =>
    match tl[i + 1]? with
    | none => i
    | some item =>
      match item.timestamp, ats with
      | some nts, some a => if strLE nts a then advanceIdx tl ats (i + 1) fuel else i
      | _, _ => i

/- Source lines 165-172: tool names and thinking flag from content blocks. -/
def toolsOf : Content → List String
  | Content.blocks bs =>
    bs.filterMap fun b => if b.type = "tool_use" then pyStr b.name else none
  | _ => []

def thinkingOf : Content → Bool
  | Content.blocks bs => bs.any fun b => b.type == "thinking"
  | _ => false

/- Source lines 151-188: the Query built from one assistant entry, with the
   user cursor already advanced to index j. -/
def mkQuery (tl : List TimelineItem) (e : RawEntry) (m : Msg) (u : Usage) (model : String)
    (j : Nat) : Query :=
  let userMsg := tl[j]?
  let pricing := get_pricing (some model)
  { messageId := m.id
    userPrompt := userMsg.bind (·.text)
    userTimestamp := userMsg.bind (·.timestamp)
    assistantTimestamp := e.timestamp
    model := model
    inputTokens := u.input_tokens
    cacheCreationTokens := u.cache_creation_input_tokens
    cacheReadTokens := u.cache_read_input_tokens
    outputTokens := u.output_tokens
    totalTokens := u.input_tokens + u.cache_creation_input_tokens
      + u.cache_read_input_tokens + u.output_tokens
    cost := u.input_tokens * pricing.input
      + u.cache_creation_input_tokens * pricing.cacheWrite
      + u.cache_read_input_tokens * pricing.cacheRead
      + u.output_tokens * pricing.output
    tools := toolsOf m.content
    hasThinking := thinkingOf m.content }

/- The assistant loop of source lines 131-188, carrying the user cursor. -/
def extractGo (tl : List TimelineItem) : List RawEntry → Nat → List Query
  | [], _ => []
  | e :: rest, i =>
    match e.message with
    | none => extractGo tl rest i
    | some m =>
      match m.usage with
      | none => extractGo tl rest i
      | some u =>
        let model := m.model.getD "unknown"
        if model = "<synthetic>" then extractGo tl rest i
        else
          let j := advanceIdx tl e.timestamp i tl.length
          mkQuery tl e m u model j :: extractGo tl rest j

def extract_session_data (assistantEntries userMessages : List RawEntry) : List Query :=
  extractGo (timelineOf userMessages) assistantEntries 0

structure Session where
  sessionId : String
  project : String
  date : String
  timestamp : Option String
  firstPrompt : String
  model : String
  queryCount : Nat
  inputTokens : Nat
  outputTokens : Nat
  cacheCreationTokens : Nat
  cacheReadTokens : Nat
  totalTokens : Nat
  cost : Nat
  thinkingTurns : Nat
  totalToolCalls : Nat
  toolDensity : ℚ
deriving DecidableEq

structure Daily where
  date : String
  inputTokens : Nat
  outputTokens : Nat
  cacheCreationTokens : Nat
  cacheReadTokens : Nat
  totalTokens : Nat
  cost : Nat
  sessions : Nat
  queries : Nat
deriving DecidableEq

structure ModelAgg where
  model : String
  inputTokens : Nat
  outputTokens : Nat
  cacheCreationTokens : Nat
  cacheReadTokens : Nat
  totalTokens : Nat
  cost : Nat
  queryCount : Nat
deriving DecidableEq

structure PromptEntry where
  prompt : String
  inputTokens : Nat
  outputTokens : Nat
  cacheCreationTokens : Nat
  cacheReadTokens : Nat
  totalTokens : Nat
  cost : Nat
  date : String
  sessionId : String
  model : String
deriving DecidableEq

structure ProjectAgg where
  project : String
  inputTokens : Nat
  outputTokens : Nat
  cacheCreationTokens : Nat
  cacheReadTokens : Nat
  totalTokens : Nat
  cost : Nat
  sessionCount : Nat
  queryCount : Nat
deriving DecidableEq

structure ToolStat where
  name : String
  count : Nat
deriving DecidableEq

structure Totals where
  totalTokens : Nat
  totalInput : Nat
  totalOutput : Nat
  totalCacheCreation : Nat
  totalCacheRead : Nat
  totalCost : Nat
  totalSessions : Nat
  totalQueries : Nat
  totalThinkingTurns : Nat
  cacheHitRate : ℚ
  avgTokensPerSession : ℤ
  avgTokensPerQuery : ℤ
deriving DecidableEq

structure Snapshot where
  sessions : List Session
  dailyUsage : List Daily
  modelBreakdown : List ModelAgg
  topPrompts : List PromptEntry
  projects : List ProjectAgg
  toolStats : List ToolStat
  totals : Totals
deriving DecidableEq

/- Source _empty_result (lines 193-207). -/
def _empty_result : Snapshot :=
  { sessions := [], dailyUsage := [], modelBreakdown := [], topPrompts := []
    projects := [], toolStats := []
    totals := { totalTokens := 0, totalInput := 0, totalOutput := 0
                totalCacheCreation := 0, totalCacheRead := 0, totalCost := 0
                totalSessions := 0, totalQueries := 0, totalThinkingTurns := 0
                cacheHitRate := 0, avgTokensPerSession := 0, avgTokensPerQuery := 0 } }

/- Python round(): round half to even. -/
def pyRound (x : ℚ) : ℤ :=
  let f : ℤ := x.floor
  let r : ℚ := x - (f : ℚ)
  if r < 1 / 2 then f
  else if 1 / 2 < r then f + 1
  else if f % 2 = 0 then f else f + 1

/- Stable insertion sort; for equal keys `le` is true, so earlier elements
   stay first, matching Python's stable sorted()/list.sort(). -/
def insertSorted {α : Type} (le : α → α → Bool) (x : α) : List α → List α
  | [] => [x]
  | y :: ys => if le x y then x :: y :: ys else y :: insertSorted le x ys

def sortBy {α : Type} (le : α → α → Bool) : List α → List α
  | [] => []
  | x :: xs => insertSorted le x (sortBy le xs)

/- Sum of a numeric field over a list, written as the source's foldl-style
   running sum. -/
def sumBy {α : Type} (f : α → Nat) (l : List α) : Nat := l.foldl (fun a x => a + f x) 0

/- Python max(counts, key=counts.get) over an insertion-ordered dict:
   first key with the (strictly) greatest count wins. -/
def primaryModelOf (counts : List (String × Nat)) : String :=
  match counts with
  | [] => "unknown"
  | kv :: rest => (rest.foldl (fun best p => if p.2 > best.2 then p else best) kv).1

/- Source lines 308-319: representative timestamp and date of a session. -/
def firstTimestampOf (qs : List Query) : Option String :=
  match qs.findSome? (fun q => pyStr q.assistantTimestamp) with
  | some t => some t
  | none => qs.findSome? (fun q => pyStr q.userTimestamp)

def sessionDateOf (qs : List Query) : String :=
  match firstTimestampOf qs with
  | some t => dateOf t
  | none => "unknown"

/- State of the per-prompt grouping loop (source lines 337-368). -/
structure PromptState where
  cur : Option String
  pin : Nat
  pout : Nat
  pcc : Nat
  pcr : Nat
  pcost : Nat
  acc : List PromptEntry
deriving DecidableEq

def flushPrompt (date sid pmodel : String) (st : PromptState) : List PromptEntry :=
  match st.cur with
  | some c =>
    if c ≠ "" ∧ 0 < st.pin + st.pout + st.pcc + st.pcr then
      st.acc ++ [{ prompt := strTake c 300, inputTokens := st.pin, outputTokens := st.pout
                   cacheCreationTokens := st.pcc, cacheReadTokens := st.pcr
                   totalTokens := st.pin + st.pout + st.pcc + st.pcr, cost := st.pcost
                   date := date, sessionId := sid, model := pmodel }]
    else st.acc
  | none => st.acc

def promptStep (date sid pmodel : String) (st : PromptState) (q : Query) : PromptState :=
  let st1 : PromptState :=
    match pyStr q.userPrompt with
    | some up =>
      if some up ≠ st.cur then
        ⟨some up, 0, 0, 0, 0, 0, flushPrompt date sid pmodel st⟩
      else st
    | none => st
  ⟨st1.cur, st1.pin + q.inputTokens, st1.pout + q.outputTokens,
    st1.pcc + q.cacheCreationTokens, st1.pcr + q.cacheReadTokens,
    st1.pcost + q.cost, st1.acc⟩

/- One file of session data that reached the aggregation loop. -/
structure FileAgg where
  project : String
  sessionId : String
  queries : List Query
deriving DecidableEq

/- Scan-global accumulator state of the per-file loop. -/
structure AggState where
  sessions : List Session
  dailyMap : List (String × Daily)
  modelMap : List (String × ModelAgg)
  allPrompts : List PromptEntry
  toolFreq : List (String × Nat)
deriving DecidableEq

def zeroDaily (date : String) : Daily := ⟨date, 0, 0, 0, 0, 0, 0, 0, 0⟩

def zeroModel (m : String) : ModelAgg := ⟨m, 0, 0, 0, 0, 0, 0, 0⟩

def addModelQ (q : Query) (mm : ModelAgg) : ModelAgg :=
  { mm with inputTokens := mm.inputTokens + q.inputTokens
            outputTokens := mm.outputTokens + q.outputTokens
            cacheCreationTokens := mm.cacheCreationTokens + q.cacheCreationTokens
            cacheReadTokens := mm.cacheReadTokens + q.cacheReadTokens
            totalTokens := mm.totalTokens + q.totalTokens
            cost := mm.cost + q.cost
            queryCount := mm.queryCount + 1 }

/- Source lines 409-427: the per-query model rollup for one file. -/
def modelFoldFile (qs : List Query) (mm : List (String × ModelAgg)) :
    List (String × ModelAgg) :=
  qs.foldl (fun acc q =>
    if q.model = "<synthetic>" ∨ q.model = "unknown" then acc
    else updateAList q.model (addModelQ q) (zeroModel q.model) acc) mm

/- Source lines 303-304, inside the session-sum loop. -/
def toolFoldFile (qs : List Query) (tf : List (String × Nat)) : List (String × Nat) :=
  qs.foldl (fun acc q => q.tools.foldl (fun a t => updateAList t (· + 1) 0 a) acc) tf

/- Per-file quantities of the session-building pass (source lines 286-334),
   factored out of the loop body. -/
def fileInput (qs : List Query) : Nat := sumBy (·.inputTokens) qs

def fileOutput (qs : List Query) : Nat := sumBy (·.outputTokens) qs

def fileCacheCreate (qs : List Query) : Nat := sumBy (·.cacheCreationTokens) qs

def fileCacheRead (qs : List Query) : Nat := sumBy (·.cacheReadTokens) qs

def fileCost (qs : List Query) : Nat := sumBy (·.cost) qs

def fileThinking (qs : List Query) : Nat := sumBy (fun q => if q.hasThinking then 1 else 0) qs

def fileToolCalls (qs : List Query) : Nat := sumBy (fun q => q.tools.length) qs

def fileTotalTokens (qs : List Query) : Nat :=
  fileInput qs + fileCacheCreate qs + fileCacheRead qs + fileOutput qs

def primaryOf (qs : List Query) : String :=
  primaryModelOf (qs.foldl (fun mc q => updateAList q.model (· + 1) 0 mc) [])

def firstPromptOf (hist : String → Option String) (sid : String) (qs : List Query) : String :=
  match pyStr (hist sid) with
  | some p => p
  | none =>
    match qs.findSome? (fun q => pyStr q.userPrompt) with
    | some p => p
    | none => "(no prompt)"

/- The Session record built for one file (source lines 372-389). -/
def sessionOf (hist : String → Option String) (fa : FileAgg) : Session :=
  { sessionId := fa.sessionId, project := fa.project, date := sessionDateOf fa.queries
    timestamp := firstTimestampOf fa.queries
    firstPrompt := strTake (firstPromptOf hist fa.sessionId fa.queries) 200
    model := primaryOf fa.queries, queryCount := fa.queries.length
    inputTokens := fileInput fa.queries, outputTokens := fileOutput fa.queries
    cacheCreationTokens := fileCacheCreate fa.queries
    cacheReadTokens := fileCacheRead fa.queries
    totalTokens := fileTotalTokens fa.queries
    cost := fileCost fa.queries, thinkingTurns := fileThinking fa.queries
    totalToolCalls := fileToolCalls fa.queries
    toolDensity :=
      if fa.queries.length = 0 then 0
      else (fileToolCalls fa.queries : ℚ) / (fa.queries.length : ℚ) }

/- Source lines 399-407: one file folded into its daily bucket. -/
def dailyAddOf (fa : FileAgg) (d : Daily) : Daily :=
  { d with inputTokens := d.inputTokens + fileInput fa.queries
           outputTokens := d.outputTokens + fileOutput fa.queries
           cacheCreationTokens := d.cacheCreationTokens + fileCacheCreate fa.queries
           cacheReadTokens := d.cacheReadTokens + fileCacheRead fa.queries
           totalTokens := d.totalTokens + fileTotalTokens fa.queries
           cost := d.cost + fileCost fa.queries
           sessions := d.sessions + 1
           queries := d.queries + fa.queries.length }

/- Source lines 286-427: processing of one file inside parse_all_sessions,
   from session sums to daily and model rollups. -/
def stepFile (hist : String → Option String) (st : AggState) (fa : FileAgg) : AggState :=
  let date := sessionDateOf fa.queries
  let primary := primaryOf fa.queries
  { sessions := st.sessions ++ [sessionOf hist fa]
    dailyMap :=
      if date = "unknown" then st.dailyMap
      else updateAList date (dailyAddOf fa) (zeroDaily date) st.dailyMap
    modelMap := modelFoldFile fa.queries st.modelMap
    allPrompts := flushPrompt date fa.sessionId primary
      (fa.queries.foldl (promptStep date fa.sessionId primary) ⟨none, 0, 0, 0, 0, 0, st.allPrompts⟩)
    toolFreq := toolFoldFile fa.queries st.toolFreq }

def addProjS (s : Session) (p : ProjectAgg) : ProjectAgg :=
  { p with inputTokens := p.inputTokens + s.inputTokens
           outputTokens := p.outputTokens + s.outputTokens
           cacheCreationTokens := p.cacheCreationTokens + s.cacheCreationTokens
           cacheReadTokens := p.cacheReadTokens + s.cacheReadTokens
           totalTokens := p.totalTokens + s.totalTokens
           cost := p.cost + s.cost
           sessionCount := p.sessionCount + 1
           queryCount := p.queryCount + s.queryCount }

def zeroProj (proj : String) : ProjectAgg := ⟨proj, 0, 0, 0, 0, 0, 0, 0, 0⟩

/- Source lines 429-501: sorting, project rollup and totals. -/
def finalizeAgg (st : AggState) : Snapshot :=
  let sessions := sortBy (fun a b => decide (b.totalTokens ≤ a.totalTokens)) st.sessions
  let dailyUsage := sortBy (fun a b => strLE a.date b.date) (st.dailyMap.map (·.2))
  let modelBreakdown :=
    sortBy (fun a b => decide (b.totalTokens ≤ a.totalTokens)) (st.modelMap.map (·.2))
  let topPrompts :=
    (sortBy (fun a b => decide (b.totalTokens ≤ a.totalTokens)) st.allPrompts).take 50
  let projectMap := sessions.foldl
    (fun pm s => updateAList s.project (addProjS s) (zeroProj s.project) pm) []
  let projects :=
    sortBy (fun a b => decide (b.totalTokens ≤ a.totalTokens)) (projectMap.map (·.2))
  let totalInput := sumBy (·.inputTokens) sessions
  let totalOutput := sumBy (·.outputTokens) sessions
  let totalCacheCreation := sumBy (·.cacheCreationTokens) sessions
  let totalCacheRead := sumBy (·.cacheReadTokens) sessions
  let totalTokens := totalInput + totalOutput + totalCacheCreation + totalCacheRead
  let totalCost := sumBy (·.cost) sessions
  let totalQueries := sumBy (·.queryCount) sessions
  let totalThinkingTurns := sumBy (·.thinkingTurns) sessions
  let cacheHitRate : ℚ :=
    if 0 < totalCacheRead + totalCacheCreation + totalInput then
      (totalCacheRead : ℚ) / ((totalCacheRead + totalCacheCreation + totalInput : Nat) : ℚ)
    else 0
  let toolStats := sortBy (fun a b => decide (b.count ≤ a.count))
    (st.toolFreq.map (fun p => ToolStat.mk p.1 p.2))
  { sessions := sessions, dailyUsage := dailyUsage, modelBreakdown := modelBreakdown
    topPrompts := topPrompts, projects := projects, toolStats := toolStats
    totals :=
      { totalTokens := totalTokens, totalInput := totalInput, totalOutput := totalOutput
        totalCacheCreation := totalCacheCreation, totalCacheRead := totalCacheRead
        totalCost := totalCost, totalSessions := sessions.length
        totalQueries := totalQueries, totalThinkingTurns := totalThinkingTurns
        cacheHitRate := cacheHitRate
        avgTokensPerSession :=
          if sessions.length = 0 then 0
          else pyRound ((totalTokens : ℚ) / (sessions.length : ℚ))
        avgTokensPerQuery :=
          if totalQueries = 0 then 0
          else pyRound ((totalTokens : ℚ) / (totalQueries : ℚ)) } }

def initAggState : AggState := ⟨[], [], [], [], []⟩

def aggregate (hist : String → Option String) (files : List FileAgg) : Snapshot :=
  finalizeAgg (files.foldl (stepFile hist) initAggState)

/- One .jsonl file found by the directory walk.  `ck` is the fingerprint of
   _cache_key (none when os.stat fails); `plines` is the file content as
   parsed lines (none when opening/reading raises, source lines 273-276). -/
structure ScanFile where
  project : String
  sessionId : String
  ck : Option String
  plines : Option (List (Option RawEntry))
deriving DecidableEq

/- Outcome of the per-file body at source lines 265-284:
   `queries`: the query list bound by the hit or miss branch (none when the
   body hit a `continue` before queries was bound);
   `record`: the new-cache entry written for the file, if any;
   `parsed`: whether parse_jsonl_file ran (i.e. the file was re-parsed). -/
structure FileOutcome where
  queries : Option (List Query)
  record : Option (String × List Query)
  parsed : Bool
deriving DecidableEq

def processFile (cache : List (String × List Query)) (f : ScanFile) : FileOutcome :=
  match f.ck with
  | some k =>
    match lookupA k cache with
    | some qs => ⟨some qs, some (k, qs), false⟩
    | none =>
      match f.plines with
      | none => ⟨none, none, true⟩
      | some ls =>
        let p := parse_jsonl_file ls
        if p.assistantEntries = [] then ⟨none, none, true⟩
        else
          let qs := extract_session_data p.assistantEntries p.userMessages
          ⟨some qs, some (k, qs), true⟩
  | none =>
    match f.plines with
    | none => ⟨none, none, true⟩
    | some ls =>
      let p := parse_jsonl_file ls
      if p.assistantEntries = [] then ⟨none, none, true⟩
      else ⟨some (extract_session_data p.assistantEntries p.userMessages), none, true⟩

/- The session data a file contributes to aggregation (empty when the body
   hit `continue`, source lines 278-285). -/
def fileContribution (cache : List (String × List Query)) (f : ScanFile) : List FileAgg :=
  match (processFile cache f).queries with
  | some qs => if qs = [] then [] else [⟨f.project, f.sessionId, qs⟩]
  | none => []

structure ScanResult where
  fileAggs : List FileAgg
  newCache : List (String × List Query)
  parseCount : Nat
deriving DecidableEq

def scanStep (cache : List (String × List Query)) (r : ScanResult) (f : ScanFile) :
    ScanResult :=
  let o := processFile cache f
  { fileAggs := r.fileAggs ++ fileContribution cache f
    newCache :=
      match o.record with
      | some kqs => insertLWW kqs.1 kqs.2 r.newCache
      | none => r.newCache
    parseCount := r.parseCount + (if o.parsed then 1 else 0) }

def scanFiles (cache : List (String × List Query)) (files : List ScanFile) : ScanResult :=
  files.foldl (scanStep cache) ⟨[], [], 0⟩

/- parse_all_sessions (source lines 210-501).  The directory tree is an
   explicit input: `none` when the projects root directory is absent, else
   the .jsonl files of all project subdirectories in walk order.  `hist` is
   the session_first_prompt index already read from history.jsonl (source
   lines 220-241); `loadedCache` is the persisted cache as loaded.  Returns
   the snapshot, the cache snapshot passed to _save_cache, and the number
   of parse_jsonl_file invocations (the re-parse count). -/
def parse_all_sessions (tree : Option (List ScanFile))
    (loadedCache : List (String × List Query)) (hist : String → Option String)
    (forceRefresh : Bool) : Snapshot × List (String × List Query) × Nat :=
  match tree with
  | none => (_empty_result, loadedCache, 0)
  | some files =>
    let cache := if forceRefresh then [] else loadedCache
    let r := scanFiles cache files
    (aggregate hist r.fileAggs, r.newCache, r.parseCount)

/- The value of the LAST pair carrying key k, i.e. the later occurrence in
   stream order. -/
def lastAssoc {α : Type} (k : String) : List (String × α) → Option α
  | [] => none
  | p :: rest =>
    match lastAssoc k rest with
    | some v => some v
    | none => if p.1 = k then some p.2 else none

/- Keys of a pair stream in order of first occurrence, skipping keys
   already in `seen`. -/
def dedupKeysFrom {α : Type} (seen : List String) : List (String × α) → List String
  | [] => []
  | p :: rest =>
    if p.1 ∈ seen then dedupKeysFrom seen rest
    else p.1 :: dedupKeysFrom (p.1 :: seen) rest

theorem lookupA_insertLWW_self {α : Type} (k : String) (v : α) (m : List (String × α)) :
    lookupA k (insertLWW k v m) = some v := by
  induction m with
  | nil => simp [insertLWW, lookupA]
  | cons p rest ih =>
    obtain ⟨a, b⟩ := p
    by_cases h : a = k
    · simp [insertLWW, h, lookupA]
    · simp [insertLWW, h, lookupA, ih]

theorem lookupA_insertLWW_ne {α : Type} (k k2 : String) (v : α) (m : List (String × α))
    (h : k2 ≠ k) : lookupA k2 (insertLWW k v m) = lookupA k2 m := by
  have h2 : ¬ k = k2 := fun hh => h hh.symm
  induction m with
  | nil => simp [insertLWW, lookupA, h2]
  | cons p rest ih =>
    obtain ⟨a, b⟩ := p
    by_cases ha : a = k
    · subst ha
      simp [insertLWW, lookupA, h2]
    · simp only [insertLWW, if_neg ha]
      by_cases ha2 : a = k2
      · simp [lookupA, ha2]
      · simp [lookupA, ha2, ih]

theorem keysOf_insertLWW {α : Type} (k : String) (v : α) (m : List (String × α)) :
    keysOf (insertLWW k v m) =
      if k ∈ keysOf m then keysOf m else keysOf m ++ [k] := by
  induction m with
  | nil => simp [insertLWW, keysOf]
  | cons p rest ih =>
    obtain ⟨a, b⟩ := p
    by_cases h : a = k
    · subst h
      simp [insertLWW, keysOf]
    · have h2 : ¬ k = a := fun hh => h hh.symm
      simp only [insertLWW, if_neg h, keysOf, List.map_cons, List.mem_cons, h2, false_or]
      by_cases hm : k ∈ keysOf rest
      · simp only [keysOf] at hm ih
        simp [hm] at ih
        simp [hm, ih]
      · simp only [keysOf] at hm ih
        simp [hm] at ih
        simp [hm, ih]

theorem mem_keysOf_insertLWW {α : Type} (k k2 : String) (v : α) (m : List (String × α)) :
    k2 ∈ keysOf (insertLWW k v m) ↔ k2 = k ∨ k2 ∈ keysOf m := by
  rw [keysOf_insertLWW]
  by_cases hm : k ∈ keysOf m
  · simp only [if_pos hm]
    constructor
    · exact fun h => Or.inr h
    · rintro (h | h)
      · subst h; exact hm
      · exact h
  · simp [if_neg hm, or_comm]

theorem nodup_keysOf_insertLWW {α : Type} (k : String) (v : α) (m : List (String × α))
    (h : (keysOf m).Nodup) : (keysOf (insertLWW k v m)).Nodup := by
  rw [keysOf_insertLWW]
  by_cases hm : k ∈ keysOf m
  · simp [hm, h]
  · simp only [if_neg hm, List.nodup_append, h, List.nodup_singleton, true_and]
    intro x hx hx2
    simp at hx2
    subst hx2
    exact hm hx

theorem mem_insertLWW {α : Type} (k : String) (v : α) (m : List (String × α))
    (p : String × α) (hp : p ∈ insertLWW k v m) : p = (k, v) ∨ p ∈ m := by
  induction m with
  | nil => simpa [insertLWW] using hp
  | cons q rest ih =>
    obtain ⟨a, b⟩ := q
    by_cases h : a = k
    · simp only [insertLWW, if_pos h, List.mem_cons] at hp
      rcases hp with hp | hp
      · exact Or.inl hp
      · exact Or.inr (List.mem_cons_of_mem _ hp)
    · simp only [insertLWW, if_neg h, List.mem_cons] at hp
      rcases hp with hp | hp
      · exact Or.inr (by simp [hp])
      · rcases ih hp with hh | hh
        · exact Or.inl hh
        · exact Or.inr (List.mem_cons_of_mem _ hh)

theorem dedupKeysFrom_congr {α : Type} (l : List (String × α)) :
    ∀ s1 s2 : List String, (∀ x, x ∈ s1 ↔ x ∈ s2) →
      dedupKeysFrom s1 l = dedupKeysFrom s2 l := by
  induction l with
  | nil => intro s1 s2 _; rfl
  | cons p rest ih =>
    intro s1 s2 hs
    by_cases h1 : p.1 ∈ s1
    · have h2 : p.1 ∈ s2 := (hs p.1).mp h1
      simp only [dedupKeysFrom, if_pos h1, if_pos h2]
      exact ih s1 s2 hs
    · have h2 : p.1 ∉ s2 := fun hh => h1 ((hs p.1).mpr hh)
      simp only [dedupKeysFrom, if_neg h1, if_neg h2]
      congr 1
      refine ih _ _ ?_
      intro x
      simp [hs x]

theorem lookupA_foldIns {α : Type} (l : List (String × α)) :
    ∀ (init : List (String × α)) (k : String),
      lookupA k (l.foldl (fun m p => insertLWW p.1 p.2 m) init) =
        match lastAssoc k l with
        | some v => some v
        | none => lookupA k init := by
  induction l with
  | nil => intro init k; rfl
  | cons p rest ih =>
    intro init k
    simp only [List.foldl_cons]
    rw [ih]
    simp only [lastAssoc]
    cases hla : lastAssoc k rest with
    | some v => rfl
    | none =>
      by_cases h : p.1 = k
      · subst h
        simp [lookupA_insertLWW_self]
      · have h2 : k ≠ p.1 := fun hh => h hh.symm
        simp [h, lookupA_insertLWW_ne _ _ _ _ h2]

theorem keysOf_foldIns {α : Type} (l : List (String × α)) :
    ∀ init : List (String × α),
      keysOf (l.foldl (fun m p => insertLWW p.1 p.2 m) init) =
        keysOf init ++ dedupKeysFrom (keysOf init) l := by
  induction l with
  | nil => intro init; simp [dedupKeysFrom]
  | cons p rest ih =>
    intro init
    simp only [List.foldl_cons]
    rw [ih]
    by_cases h : p.1 ∈ keysOf init
    · simp only [dedupKeysFrom, if_pos h]
      rw [keysOf_insertLWW, if_pos h]
    · simp only [dedupKeysFrom, if_neg h]
      rw [keysOf_insertLWW, if_neg h]
      rw [dedupKeysFrom_congr rest (keysOf init ++ [p.1]) (p.1 :: keysOf init) (by intro x; simp [or_comm])]
      simp

theorem nodup_keysOf_foldIns {α : Type} (l : List (String × α)) :
    ∀ init : List (String × α), (keysOf init).Nodup →
      (keysOf (l.foldl (fun m p => insertLWW p.1 p.2 m) init)).Nodup := by
  induction l with
  | nil => intro init h; exact h
  | cons p rest ih =>
    intro init h
    simp only [List.foldl_cons]
    exact ih _ (nodup_keysOf_insertLWW _ _ _ h)

theorem mem_foldIns {α : Type} (l : List (String × α)) :
    ∀ (init : List (String × α)) (q : String × α),
      q ∈ l.foldl (fun m p => insertLWW p.1 p.2 m) init → q ∈ init ∨ q ∈ l := by
  induction l with
  | nil => intro init q h; exact Or.inl h
  | cons p rest ih =>
    intro init q h
    simp only [List.foldl_cons] at h
    rcases ih _ _ h with hh | hh
    · rcases mem_insertLWW _ _ _ _ hh with h2 | h2
      · exact Or.inr (by simp [h2])
      · exact Or.inl h2
    · exact Or.inr (List.mem_cons_of_mem _ hh)

/- The message_map side of the parse fold is exactly a last-write-wins
   insertion fold over the kept assistant stream. -/
theorem parseFold_assistant (lines : List (Option RawEntry)) :
    ∀ st : List (String × RawEntry) × List RawEntry,
      (lines.foldl parseStep st).1 =
        (keptAssistants lines).foldl (fun m p => insertLWW p.1 p.2 m) st.1 := by
  induction lines with
  | nil => intro st; rfl
  | cons l rest ih =>
    intro st
    simp only [List.foldl_cons]
    rw [ih]
    cases l with
    | none =>
      have h2 : keptAssistants (none :: rest) = keptAssistants rest := by
        simp [keptAssistants]
      rw [h2]
      rfl
    | some e =>
      by_cases hs : e.isSidechain
      · have h1 : parseStep st (some e) = st := by simp [parseStep, hs]
        have h2 : keptAssistants (some e :: rest) = keptAssistants rest := by
          simp [keptAssistants, hs]
        rw [h1, h2]
      · by_cases ht : e.type = "assistant"
        · have htu : ¬ e.type = "user" := by rw [ht]; decide
          cases hm : e.message with
          | none =>
            have h1 : parseStep st (some e) = st := by simp [parseStep, hs, ht, hm]
            have h2 : keptAssistants (some e :: rest) = keptAssistants rest := by
              simp [keptAssistants, hs, ht, hm]
            rw [h1, h2]
          | some m =>
            cases hid : pyStr m.id with
            | none =>
              have h1 : parseStep st (some e) = st := by
                simp [parseStep, hs, ht, htu, hm, hid]
              have h2 : keptAssistants (some e :: rest) = keptAssistants rest := by
                simp [keptAssistants, hs, ht, hm, hid]
              rw [h1, h2]
            | some i =>
              have h1 : parseStep st (some e) = (insertLWW i e st.1, st.2) := by
                simp [parseStep, hs, ht, htu, hm, hid]
              have h2 : keptAssistants (some e :: rest) = (i, e) :: keptAssistants rest := by
                simp [keptAssistants, hs, ht, hm, hid]
              rw [h1, h2]
              rfl
        · by_cases hu : e.type = "user"
          · have h2 : keptAssistants (some e :: rest) = keptAssistants rest := by
              simp [keptAssistants, hs, ht]
            rw [h2]
            cases hm : e.message with
            | none =>
              have h1 : parseStep st (some e) = st := by simp [parseStep, hs, ht, hu, hm]
              rw [h1]
            | some m =>
              have h1 : (parseStep st (some e)).1 = st.1 := by
                simp only [parseStep, hm]
                rw [if_neg hs]
                rw [if_pos (Or.inl hu)]
                rw [if_neg ht]
                split <;> rfl
              rw [h1]
          · have h1 : parseStep st (some e) = st := by simp [parseStep, hs, ht, hu]
            have h2 : keptAssistants (some e :: rest) = keptAssistants rest := by
              simp [keptAssistants, hs, ht]
            rw [h1, h2]

/- The message identity a record was deduplicated under, when any. -/
def entryIdOf (e : RawEntry) : Option String := pyStr (e.message.bind Msg.id)

theorem keptAssistants_id (lines : List (Option RawEntry)) :
    ∀ p ∈ keptAssistants lines, entryIdOf p.2 = some p.1 := by
  intro p hp
  unfold keptAssistants at hp
  rw [List.mem_filterMap] at hp
  obtain ⟨l, _, he⟩ := hp
  cases l with
  | none => simp at he
  | some e =>
    by_cases hs : e.isSidechain
    · simp [hs] at he
    · by_cases ht : e.type = "assistant"
      · cases hm : e.message with
        | none => simp [hs, ht, hm] at he
        | some m =>
          cases hid : pyStr m.id with
          | none => simp [hs, ht, hm, hid] at he
          | some i =>
            simp only [hs, ht, hm, hid, Bool.false_eq_true, if_false, if_true, ite_false,
              ite_true, Option.map_some] at he
            cases he
            simp [entryIdOf, hm, hid]
      · simp [hs, ht] at he

/-- C2: parse_jsonl_file returns at most one assistant record per message
identity; on repeated identity the kept record is the later occurrence in
file order (last-write-wins, as characterized by `lastAssoc`), and the
deduplicated list is ordered by each identity's first occurrence
(`dedupKeysFrom []`), not by recurrence order. -/
theorem parse_dedup_last_write_wins (lines : List (Option RawEntry)) :
    ((parse_jsonl_file lines).assistantEntries.map entryIdOf).Nodup
    ∧ (parse_jsonl_file lines).assistantEntries.map entryIdOf
        = (dedupKeysFrom [] (keptAssistants lines)).map some
    ∧ ∀ k, lookupA k (parseFold lines).1 = lastAssoc k (keptAssistants lines) := by
  have hfold : (parseFold lines).1 =
      (keptAssistants lines).foldl (fun m p => insertLWW p.1 p.2 m) [] :=
    parseFold_assistant lines ([], [])
  have hinv : ∀ p ∈ (parseFold lines).1, entryIdOf p.2 = some p.1 := by
    intro p hp
    rw [hfold] at hp
    rcases mem_foldIns _ _ _ hp with h | h
    · simp at h
    · exact keptAssistants_id lines p h
  have hkeys : keysOf (parseFold lines).1 = dedupKeysFrom [] (keptAssistants lines) := by
    rw [hfold, keysOf_foldIns]
    simp [keysOf]
  have hmap : (parse_jsonl_file lines).assistantEntries.map entryIdOf
      = ((parseFold lines).1).map (fun p => some p.1) := by
    unfold parse_jsonl_file
    simp only [List.map_map]
    exact List.map_congr_left (fun p hp => hinv p hp)
  refine ⟨?_, ?_, ?_⟩
  · rw [hmap]
    have : ((parseFold lines).1).map (fun p => some p.1) = (keysOf (parseFold lines).1).map some := by
      simp [keysOf, List.map_map]
    rw [this]
    refine List.Nodup.map (fun a b h => Option.some_injective _ h) ?_
    rw [hfold]
    exact nodup_keysOf_foldIns _ _ (by simp [keysOf])
  · rw [hmap]
    have : ((parseFold lines).1).map (fun p => some p.1) = (keysOf (parseFold lines).1).map some := by
      simp [keysOf, List.map_map]
    rw [this, hkeys]
  · intro k
    rw [hfold, lookupA_foldIns]
    cases h : lastAssoc k (keptAssistants lines) <;> simp [lookupA]

/- The resolution policy exactly as the claim states it, reading its family
   clauses as the ordered priority chain opus → haiku → sonnet/unmatched
   (the claim lists the haiku clause before the sonnet clause). -/
def get_pricing_claimed (model : Option String) : Pricing :=
  match pyStr model with
  | none => MODEL_PRICING "sonnet"
  | some s =>
    let m := strLower s
    if strContains m "opus" then
      if strContains m "4-6" || strContains m "4.6" then MODEL_PRICING "opus-4.6"
      else if strContains m "4-5" || strContains m "4.5" then MODEL_PRICING "opus-4.5"
      else if strContains m "4-1" || strContains m "4.1" then MODEL_PRICING "opus-4.1"
      else MODEL_PRICING "opus-4.0"
    else if strContains m "haiku" then
      if strContains m "4-5" || strContains m "4.5" then MODEL_PRICING "haiku-4.5"
      else MODEL_PRICING "haiku-3.5"
    else if strContains m "sonnet" then MODEL_PRICING "sonnet"
    else MODEL_PRICING "sonnet"

/- The claim's policy amended in one point: like the source, a model whose
   name contains both "sonnet" and "haiku" resolves as sonnet (the sonnet
   substring test runs before the haiku one). -/
def get_pricing_spec (model : Option String) : Pricing :=
  match pyStr model with
  | none => MODEL_PRICING "sonnet"
  | some s =>
    let m := strLower s
    if strContains m "opus" then
      if strContains m "4-6" || strContains m "4.6" then MODEL_PRICING "opus-4.6"
      else if strContains m "4-5" || strContains m "4.5" then MODEL_PRICING "opus-4.5"
      else if strContains m "4-1" || strContains m "4.1" then MODEL_PRICING "opus-4.1"
      else MODEL_PRICING "opus-4.0"
    else if strContains m "sonnet" then MODEL_PRICING "sonnet"
    else if strContains m "haiku" then
      if strContains m "4-5" || strContains m "4.5" then MODEL_PRICING "haiku-4.5"
      else MODEL_PRICING "haiku-3.5"
    else MODEL_PRICING "sonnet"

/-- C5 counterexample: "sonnet-haiku" contains "haiku" and no 4.5
sub-version token, yet get_pricing resolves it to sonnet rates, not the
haiku 3.5 baseline the claim's haiku clause requires; the source tests
"sonnet" before "haiku", while the claim lists haiku first. -/
theorem get_pricing_claim_counterexample :
    strContains (strLower "sonnet-haiku") "haiku" = true
    ∧ strContains (strLower "sonnet-haiku") "4-5" = false
    ∧ strContains (strLower "sonnet-haiku") "4.5" = false
    ∧ get_pricing (some "sonnet-haiku") = MODEL_PRICING "sonnet"
    ∧ get_pricing (some "sonnet-haiku") ≠ MODEL_PRICING "haiku-3.5"
    ∧ get_pricing (some "sonnet-haiku") ≠ get_pricing_claimed (some "sonnet-haiku") := by
  decide

/-- C5 (amended): get_pricing is a pure total Lean function; null/empty
resolves to sonnet rates; otherwise, case-insensitively, opus resolves
through its 4.6/4.5/4.1/4.0 sub-tiers, then a model containing "sonnet"
resolves to sonnet rates, then haiku through 4.5/3.5, and any unmatched
family falls back to sonnet rates (`get_pricing_spec`). -/
theorem get_pricing_total_policy (m : Option String) :
    get_pricing m = get_pricing_spec m := by
  cases m with
  | none => rfl
  | some s =>
    by_cases h : s = ""
    · subst h; rfl
    · simp [get_pricing, get_pricing_spec, pyStr, h]

/- Concrete records used to instantiate theorems. -/
def userEntryAt (t : String) : RawEntry :=
  ⟨false, "user", some ⟨some "user", none, none, none, Content.str "hi"⟩, some t, some "u1", false⟩

def asstEntryAt (t : String) : RawEntry :=
  ⟨false, "assistant",
    some ⟨some "assistant", some "m1", some "claude-sonnet-4", some ⟨1, 2, 3, 4⟩, Content.other⟩,
    some t, none, false⟩

/-- C3: with user records at timestamps 10 and 20, an assistant record at 15
pairs with the t=10 user record, and an assistant record at exactly 20 pairs
with the t=20 user record (an equal timestamp advances the cursor). -/
theorem pairing_at_concrete_timestamps :
    (extract_session_data [asstEntryAt "15"] [userEntryAt "10", userEntryAt "20"]).map
        Query.userTimestamp = [some "10"]
    ∧ (extract_session_data [asstEntryAt "20"] [userEntryAt "10", userEntryAt "20"]).map
        Query.userTimestamp = [some "20"] := by
  decide

theorem extractGo_query_inv (tl : List TimelineItem) :
    ∀ (entries : List RawEntry) (i : Nat), ∀ q ∈ extractGo tl entries i,
      q.totalTokens = q.inputTokens + q.cacheCreationTokens + q.cacheReadTokens + q.outputTokens
      ∧ q.cost = q.inputTokens * (get_pricing (some q.model)).input
          + q.cacheCreationTokens * (get_pricing (some q.model)).cacheWrite
          + q.cacheReadTokens * (get_pricing (some q.model)).cacheRead
          + q.outputTokens * (get_pricing (some q.model)).output := by
  intro entries
  induction entries with
  | nil => intro i q hq; simp [extractGo] at hq
  | cons e rest ih =>
    intro i q hq
    cases hm : e.message with
    | none =>
      simp only [extractGo, hm] at hq
      exact ih i q hq
    | some m =>
      cases hu : m.usage with
      | none =>
        simp only [extractGo, hm, hu] at hq
        exact ih i q hq
      | some u =>
        simp only [extractGo, hm, hu] at hq
        by_cases hsyn : m.model.getD "unknown" = "<synthetic>"
        · rw [if_pos hsyn] at hq
          exact ih i q hq
        · rw [if_neg hsyn] at hq
          rcases List.mem_cons.mp hq with h | h
          · subst h
            exact ⟨rfl, rfl⟩
          · exact ih _ q h

/-- C7: every Query emitted by extract_session_data has totalTokens equal to
the sum of its four token counts, and cost equal to the counts multiplied by
the rates get_pricing resolves for its model. -/
theorem query_totals_and_cost (assistantEntries userMessages : List RawEntry) :
    ∀ q ∈ extract_session_data assistantEntries userMessages,
      q.totalTokens = q.inputTokens + q.cacheCreationTokens + q.cacheReadTokens + q.outputTokens
      ∧ q.cost = q.inputTokens * (get_pricing (some q.model)).input
          + q.cacheCreationTokens * (get_pricing (some q.model)).cacheWrite
          + q.cacheReadTokens * (get_pricing (some q.model)).cacheRead
          + q.outputTokens * (get_pricing (some q.model)).output :=
  extractGo_query_inv (timelineOf userMessages) assistantEntries 0

def defaultQuery : Query := ⟨none, none, none, none, "", 0, 0, 0, 0, 0, 0, [], false⟩

def witnessQuery : Query :=
  (extract_session_data [asstEntryAt "15"] [userEntryAt "10", userEntryAt "20"]).headD
    defaultQuery

/-- Witness for C7 at a concrete extraction. -/
theorem query_totals_and_cost_witness :
    witnessQuery.totalTokens = witnessQuery.inputTokens + witnessQuery.cacheCreationTokens
        + witnessQuery.cacheReadTokens + witnessQuery.outputTokens
    ∧ witnessQuery.cost = witnessQuery.inputTokens * (get_pricing (some witnessQuery.model)).input
        + witnessQuery.cacheCreationTokens * (get_pricing (some witnessQuery.model)).cacheWrite
        + witnessQuery.cacheReadTokens * (get_pricing (some witnessQuery.model)).cacheRead
        + witnessQuery.outputTokens * (get_pricing (some witnessQuery.model)).output :=
  query_totals_and_cost [asstEntryAt "15"] [userEntryAt "10", userEntryAt "20"]
    witnessQuery (by decide)

theorem charListLE_refl (x : List Char) : charListLE x x = true := by
  induction x with
  | nil => rfl
  | cons a as ih => simp [charListLE, lt_irrefl, ih]

theorem charListLE_trans (x : List Char) :
    ∀ y z, charListLE x y = true → charListLE y z = true → charListLE x z = true := by
  induction x with
  | nil => intro y z _ _; rfl
  | cons a as ih =>
    intro y z h1 h2
    cases y with
    | nil => simp [charListLE] at h1
    | cons b bs =>
      cases z with
      | nil => simp [charListLE] at h2
      | cons c cs =>
        by_cases hab : a < b
        · by_cases hbc : b < c
          · simp [charListLE, lt_trans hab hbc]
          · by_cases hcb : c < b
            · simp [charListLE, hbc, hcb] at h2
            · have hb : b = c := le_antisymm (not_lt.mp hcb) (not_lt.mp hbc)
              subst hb
              simp [charListLE, hab]
        · by_cases hba : b < a
          · simp [charListLE, hab, hba] at h1
          · have ha : a = b := le_antisymm (not_lt.mp hba) (not_lt.mp hab)
            subst ha
            simp only [charListLE, lt_irrefl, if_false, ite_false] at h1
            by_cases hac : a < c
            · simp [charListLE, hac]
            · by_cases hca : c < a
              · simp [charListLE, hac, hca] at h2
              · have ha2 : a = c := le_antisymm (not_lt.mp hca) (not_lt.mp hac)
                subst ha2
                simp only [charListLE, lt_irrefl, if_false, ite_false] at h2 ⊢
                exact ih bs cs h1 h2

theorem charListLE_total (x : List Char) :
    ∀ y, charListLE x y = true ∨ charListLE y x = true := by
  induction x with
  | nil => intro y; exact Or.inl rfl
  | cons a as ih =>
    intro y
    cases y with
    | nil => exact Or.inr rfl
    | cons b bs =>
      by_cases hab : a < b
      · exact Or.inl (by simp [charListLE, hab])
      · by_cases hba : b < a
        · exact Or.inr (by simp [charListLE, hba])
        · have ha : a = b := le_antisymm (not_lt.mp hba) (not_lt.mp hab)
          subst ha
          rcases ih bs with h | h
          · exact Or.inl (by simp [charListLE, lt_irrefl, h])
          · exact Or.inr (by simp [charListLE, lt_irrefl, h])

theorem strLE_refl (a : String) : strLE a a = true := charListLE_refl a.data

theorem strLE_trans {a b c : String} (h1 : strLE a b = true) (h2 : strLE b c = true) :
    strLE a c = true := charListLE_trans a.data b.data c.data h1 h2

theorem strLE_total (a b : String) : strLE a b = true ∨ strLE b a = true :=
  charListLE_total a.data b.data

/- The timestamp stored at timeline position i, when the position exists. -/
def tlTs (tl : List TimelineItem) (i : Nat) : Option String :=
  tl[i]?.bind TimelineItem.timestamp

/- Comparison of two optional timestamps: constrains only the case where
   both are present (the source while-loop tests presence separately). -/
def optTsLE (x y : Option String) : Prop :=
  match x, y with
  | some a, some b => strLE a b = true
  | _, _ => True

instance optTsLE.instDecidable : (x y : Option String) → Decidable (optTsLE x y)
  | some a, some b => inferInstanceAs (Decidable (strLE a b = true))
  | some _, none => inferInstanceAs (Decidable True)
  | none, some _ => inferInstanceAs (Decidable True)
  | none, none => inferInstanceAs (Decidable True)

theorem advanceIdx_ats_none (tl : List TimelineItem) :
    ∀ (fuel i : Nat), advanceIdx tl none i fuel = i := by
  intro fuel
  induction fuel with
  | zero => intro i; rfl
  | succ fuel _ =>
    intro i
    cases h1 : tl[i + 1]? with
    | none => simp [advanceIdx, h1]
    | some item => cases hts : item.timestamp <;> simp [advanceIdx, h1, hts]

theorem advanceIdx_ge (tl : List TimelineItem) (ats : Option String) :
    ∀ (fuel i : Nat), i ≤ advanceIdx tl ats i fuel := by
  intro fuel
  induction fuel with
  | zero => intro i; exact Nat.le_refl i
  | succ fuel ih =>
    intro i
    cases h1 : tl[i + 1]? with
    | none => simp [advanceIdx, h1]
    | some item =>
      cases hts : item.timestamp with
      | none => cases ats <;> simp [advanceIdx, h1, hts]
      | some nts =>
        cases ats with
        | none => simp [advanceIdx, h1, hts]
        | some a =>
          by_cases hle : strLE nts a = true
          · simp only [advanceIdx, h1, hts, hle, if_true, ite_true]
            exact Nat.le_trans (Nat.le_succ i) (ih (i + 1))
          · simp [advanceIdx, h1, hts, hle]

/- When the loop stops with a successor position still in range, the next
   timestamp is strictly after the assistant timestamp. -/
theorem advanceIdx_stop (tl : List TimelineItem) (a : String) :
    ∀ (fuel i : Nat), tl.length ≤ i + fuel →
      ∀ item, tl[advanceIdx tl (some a) i fuel + 1]? = some item →
        ∀ nts, item.timestamp = some nts → strLE nts a = false := by
  intro fuel
  induction fuel with
  | zero =>
    intro i hlen item hget nts _
    exfalso
    have hgt : tl[i + 1]? = some item := by simpa [advanceIdx] using hget
    have h1 : i + 1 < tl.length := by
      rcases List.getElem?_eq_some.mp hgt with ⟨h, _⟩
      exact h
    omega
  | succ fuel ih =>
    intro i hlen item hget nts hnts
    cases h1 : tl[i + 1]? with
    | none =>
      simp only [advanceIdx, h1] at hget
      exact Option.noConfusion hget
    | some item0 =>
      cases hts : item0.timestamp with
      | none =>
        simp only [advanceIdx, h1, hts] at hget
        injection hget with h2
        rw [← h2] at hnts
        rw [hts] at hnts
        cases hnts
      | some nts0 =>
        simp only [advanceIdx, h1, hts] at hget
        by_cases hle : strLE nts0 a = true
        · rw [if_pos hle] at hget
          exact ih (i + 1) (by omega) item hget nts hnts
        · rw [if_neg hle] at hget
          have h2 : some item0 = some item := h1.symm.trans hget
          injection h2 with h2
          rw [← h2] at hnts
          rw [hts] at hnts
          injection hnts with h3
          rw [h3] at hle
          simpa using hle

/- If the very first step of the loop cannot fire, the cursor stays put. -/
theorem advanceIdx_stay (tl : List TimelineItem) (a : String) (fuel i : Nat)
    (h : ∀ item, tl[i + 1]? = some item →
      ∀ nts, item.timestamp = some nts → strLE nts a = false) :
    advanceIdx tl (some a) i fuel = i := by
  cases fuel with
  | zero => rfl
  | succ fuel =>
    cases h1 : tl[i + 1]? with
    | none => simp [advanceIdx, h1]
    | some item =>
      cases hts : item.timestamp with
      | none => simp [advanceIdx, h1, hts]
      | some nts => simp [advanceIdx, h1, hts, h item h1 nts hts]

/- If the start position carries a timestamp at most the assistant
   timestamp, so does the landing position. -/
theorem advanceIdx_land (tl : List TimelineItem) (a : String) :
    ∀ (fuel i : Nat), (∃ b, tlTs tl i = some b ∧ strLE b a = true) →
      ∃ b, tlTs tl (advanceIdx tl (some a) i fuel) = some b ∧ strLE b a = true := by
  intro fuel
  induction fuel with
  | zero => intro i hi; exact hi
  | succ fuel ih =>
    intro i hi
    cases h1 : tl[i + 1]? with
    | none => simpa [advanceIdx, h1] using hi
    | some item =>
      cases hts : item.timestamp with
      | none => simpa [advanceIdx, h1, hts] using hi
      | some nts =>
        by_cases hle : strLE nts a = true
        · simp only [advanceIdx, h1, hts, hle, if_true, ite_true]
          exact ih (i + 1) ⟨nts, by simp [tlTs, h1, hts], hle⟩
        · simpa [advanceIdx, h1, hts, hle] using hi

theorem optTsLE_some {a b : String} (h : optTsLE (some a) (some b)) : strLE a b = true := h

theorem tlTs_at (tl : List TimelineItem) (k : Nat) (hk : k < tl.length) :
    tlTs tl k = tl[k].timestamp := by
  simp [tlTs, List.getElem?_eq_getElem hk]

theorem tlTs_some_bound (tl : List TimelineItem) (k : Nat) (t : String)
    (h : tlTs tl k = some t) : k < tl.length := by
  by_contra hk
  rw [tlTs, List.getElem?_eq_none (by omega)] at h
  cases h

theorem tlTs_present (tl : List TimelineItem)
    (hsome : ∀ it ∈ tl, it.timestamp.isSome = true) (k : Nat) (hk : k < tl.length) :
    ∃ t, tlTs tl k = some t := by
  rw [tlTs_at tl k hk]
  exact Option.isSome_iff_exists.mp (hsome tl[k] (tl.getElem_mem hk))

theorem tlTs_sorted_le (tl : List TimelineItem)
    (hsorted : List.Pairwise (fun x y => optTsLE x.timestamp y.timestamp) tl)
    (k1 k2 : Nat) (hk : k1 ≤ k2) (t1 t2 : String)
    (h1 : tlTs tl k1 = some t1) (h2 : tlTs tl k2 = some t2) : strLE t1 t2 = true := by
  have hb2 : k2 < tl.length := tlTs_some_bound tl k2 t2 h2
  have hb1 : k1 < tl.length := lt_of_le_of_lt hk hb2
  rw [tlTs_at tl k1 hb1] at h1
  rw [tlTs_at tl k2 hb2] at h2
  rcases Nat.lt_or_ge k1 k2 with hlt | hge
  · have hrel := List.pairwise_iff_get.mp hsorted ⟨k1, hb1⟩ ⟨k2, hb2⟩ hlt
    rw [List.get_eq_getElem, List.get_eq_getElem] at hrel
    rw [h1, h2] at hrel
    exact optTsLE_some hrel
  · have hk12 : k1 = k2 := le_antisymm hk hge
    subst hk12
    rw [h1] at h2
    injection h2 with h2
    rw [h2]
    exact strLE_refl t2

/- The cursor invariant of the pairing loop: for a time-ordered timeline
   with all timestamps present and time-ordered assistant entries, every
   emitted Query whose two timestamps are present and for which some
   timeline item is at or before the assistant timestamp is paired with the
   latest such item. -/
theorem extractGo_pairing (tl : List TimelineItem)
    (hsome : ∀ it ∈ tl, it.timestamp.isSome = true)
    (hsorted : List.Pairwise (fun x y => optTsLE x.timestamp y.timestamp) tl) :
    ∀ (entries : List RawEntry) (i : Nat),
      List.Pairwise (fun e f => optTsLE e.timestamp f.timestamp) entries →
      (i = 0 ∨ ∃ b, tlTs tl i = some b ∧
        ∀ e ∈ entries, ∀ a2, e.timestamp = some a2 → strLE b a2 = true) →
      ∀ q ∈ extractGo tl entries i, ∀ ats uts,
        q.assistantTimestamp = some ats → q.userTimestamp = some uts →
        (∃ it ∈ tl, ∃ t, it.timestamp = some t ∧ strLE t ats = true) →
        strLE uts ats = true ∧
          ∀ it ∈ tl, ∀ t, it.timestamp = some t → strLE t ats = true →
            strLE t uts = true := by
  intro entries
  induction entries with
  | nil => intro i _ _ q hq; simp [extractGo] at hq
  | cons e rest ih =>
    intro i hpw hinv q hq ats uts hats huts helig
    have hpwhead := (List.pairwise_cons.mp hpw).1
    have hpw2 := (List.pairwise_cons.mp hpw).2
    have hinvrest : (i = 0 ∨ ∃ b, tlTs tl i = some b ∧
        ∀ e2 ∈ rest, ∀ a2, e2.timestamp = some a2 → strLE b a2 = true) := by
      rcases hinv with h | ⟨b, hb1, hb2⟩
      · exact Or.inl h
      · exact Or.inr ⟨b, hb1, fun e2 he2 => hb2 e2 (List.mem_cons_of_mem _ he2)⟩
    cases hm : e.message with
    | none =>
      simp only [extractGo, hm] at hq
      exact ih i hpw2 hinvrest q hq ats uts hats huts helig
    | some m =>
      cases hu : m.usage with
      | none =>
        simp only [extractGo, hm, hu] at hq
        exact ih i hpw2 hinvrest q hq ats uts hats huts helig
      | some u =>
        simp only [extractGo, hm, hu] at hq
        by_cases hsyn : m.model.getD "unknown" = "<synthetic>"
        · rw [if_pos hsyn] at hq
          exact ih i hpw2 hinvrest q hq ats uts hats huts helig
        · rw [if_neg hsyn] at hq
          have hinvnext : ∀ a : String, e.timestamp = some a →
              (advanceIdx tl (some a) i tl.length = 0
                ∨ ∃ b, tlTs tl (advanceIdx tl (some a) i tl.length) = some b ∧
                    ∀ e2 ∈ rest, ∀ a2, e2.timestamp = some a2 → strLE b a2 = true) := by
            intro a ha
            by_cases h0 : ∃ b, tlTs tl i = some b ∧ strLE b a = true
            · obtain ⟨b2, hbts, hble⟩ := advanceIdx_land tl a tl.length i h0
              refine Or.inr ⟨b2, hbts, fun e2 he2 a2 hts2 => ?_⟩
              have hrel := hpwhead e2 he2
              rw [ha, hts2] at hrel
              exact strLE_trans hble (optTsLE_some hrel)
            · have hi0 : i = 0 := by
                rcases hinv with h | ⟨b, hb1, hb2⟩
                · exact h
                · exact absurd ⟨b, hb1, hb2 e (List.mem_cons_self e rest) a ha⟩ h0
              subst hi0
              refine Or.inl (advanceIdx_stay tl a tl.length 0 ?_)
              intro item h1 nts hnts
              by_contra hcon
              have hle2 : strLE nts a = true := by
                cases hb : strLE nts a
                · exact absurd hb hcon
                · rfl
              have hlen1 : 0 + 1 < tl.length := by
                rcases List.getElem?_eq_some.mp h1 with ⟨h, _⟩
                exact h
              obtain ⟨t0, ht0⟩ := tlTs_present tl hsome 0 (by omega)
              have h1ts : tlTs tl 1 = some nts := by
                rw [tlTs_at tl 1 (by omega)]
                rcases List.getElem?_eq_some.mp h1 with ⟨h, hh⟩
                rw [show tl[1] = item from by simpa using hh]
                exact hnts
              have hle0 : strLE t0 nts = true :=
                tlTs_sorted_le tl hsorted 0 1 (by omega) t0 nts ht0 h1ts
              exact h0 ⟨t0, ht0, strLE_trans hle0 hle2⟩
          rcases List.mem_cons.mp hq with hqe | hqr
          · have hets : e.timestamp = some ats := by
              rw [hqe] at hats
              exact hats
            have hA : advanceIdx tl e.timestamp i tl.length
                = advanceIdx tl (some ats) i tl.length := by rw [hets]
            have hjts : tlTs tl (advanceIdx tl (some ats) i tl.length) = some uts := by
              rw [← hA]
              rw [hqe] at huts
              exact huts
            have hstart : ∃ b, tlTs tl i = some b ∧ strLE b ats = true := by
              rcases hinv with hi0 | ⟨b, hb1, hb2⟩
              · subst hi0
                obtain ⟨it, hit, t, htts, hta⟩ := helig
                obtain ⟨k, hk, hkeq⟩ := List.mem_iff_getElem.mp hit
                have hlen0 : 0 < tl.length := by omega
                obtain ⟨t0, ht0⟩ := tlTs_present tl hsome 0 hlen0
                have hkts : tlTs tl k = some t := by
                  rw [tlTs_at tl k hk, hkeq]
                  exact htts
                have hle0 : strLE t0 t = true :=
                  tlTs_sorted_le tl hsorted 0 k (Nat.zero_le k) t0 t ht0 hkts
                exact ⟨t0, ht0, strLE_trans hle0 hta⟩
              · exact ⟨b, hb1, hb2 e (List.mem_cons_self e rest) ats hets⟩
            obtain ⟨b2, hb2ts, hb2le⟩ := advanceIdx_land tl ats tl.length i hstart
            have hbu : b2 = uts := by
              have := hjts.symm.trans hb2ts
              injection this with h
              exact h.symm
            rw [hbu] at hb2le
            refine ⟨hb2le, ?_⟩
            intro it hit t htts hta
            obtain ⟨k, hk, hkeq⟩ := List.mem_iff_getElem.mp hit
            have hkts : tlTs tl k = some t := by
              rw [tlTs_at tl k hk, hkeq]
              exact htts
            set J := advanceIdx tl (some ats) i tl.length with hJ
            rcases le_or_lt k J with hkJ | hJk
            · exact tlTs_sorted_le tl hsorted k J hkJ t uts hkts hjts
            · exfalso
              have hJ1 : J + 1 < tl.length := by omega
              obtain ⟨nts1, hnts1⟩ := tlTs_present tl hsome (J + 1) hJ1
              have hstop := advanceIdx_stop tl ats tl.length i (by omega) tl[J + 1]
                (List.getElem?_eq_getElem hJ1) nts1
                (by rw [tlTs_at tl (J + 1) hJ1] at hnts1; exact hnts1)
              have hle1 : strLE nts1 t = true :=
                tlTs_sorted_le tl hsorted (J + 1) k (by omega) nts1 t hnts1 hkts
              rw [strLE_trans hle1 hta] at hstop
              cases hstop
          · cases hets2 : e.timestamp with
            | none =>
              rw [hets2, advanceIdx_ats_none] at hqr
              exact ih i hpw2 hinvrest q hqr ats uts hats huts helig
            | some a =>
              rw [hets2] at hqr
              exact ih (advanceIdx tl (some a) i tl.length) hpw2 (hinvnext a hets2)
                q hqr ats uts hats huts helig

/-- C4 counterexample: with a single eligible user record at t=10 and an
assistant record at t=05, extract_session_data still pairs them, so the
paired user timestamp 10 is NOT at or before the assistant timestamp 05 —
the claim's bound fails when no user message precedes the assistant. -/
theorem pairing_nearest_counterexample :
    (extract_session_data [asstEntryAt "05"] [userEntryAt "10"]).map Query.userTimestamp
      = [some "10"]
    ∧ (extract_session_data [asstEntryAt "05"] [userEntryAt "10"]).map Query.assistantTimestamp
      = [some "05"]
    ∧ strLE "10" "05" = false := by
  decide

/-- C4 (amended): over a time-ordered user timeline with all timestamps
present and time-ordered assistant records, every Query with both
timestamps present for which at least one eligible user message is at or
before the assistant timestamp is paired with a user message whose
timestamp is at or before the assistant timestamp, and no eligible user
message with a later timestamp satisfies that bound.  (The original claim
omitted the existence proviso: when every eligible user message is after
the assistant record, the first one is paired regardless of its timestamp,
as the counterexample shows.) -/
theorem extract_pairs_nearest_preceding (assistantEntries userMessages : List RawEntry)
    (hsome : ∀ it ∈ timelineOf userMessages, it.timestamp.isSome = true)
    (hsorted : List.Pairwise (fun x y => optTsLE x.timestamp y.timestamp)
      (timelineOf userMessages))
    (hasorted : List.Pairwise (fun e f => optTsLE e.timestamp f.timestamp) assistantEntries) :
    ∀ q ∈ extract_session_data assistantEntries userMessages, ∀ ats uts,
      q.assistantTimestamp = some ats → q.userTimestamp = some uts →
      (∃ it ∈ timelineOf userMessages, ∃ t, it.timestamp = some t ∧ strLE t ats = true) →
      strLE uts ats = true ∧
        ∀ it ∈ timelineOf userMessages, ∀ t, it.timestamp = some t → strLE t ats = true →
          strLE t uts = true :=
  extractGo_pairing (timelineOf userMessages) hsome hsorted assistantEntries 0 hasorted
    (Or.inl rfl)

/-- Witness for C4 (amended) at the concrete t=10/t=20 timeline with an
assistant record at t=15: the paired timestamp 10 is at or before 15. -/
theorem extract_pairs_nearest_preceding_witness : strLE "10" "15" = true :=
  (extract_pairs_nearest_preceding [asstEntryAt "15"] [userEntryAt "10", userEntryAt "20"]
    (by decide) (by decide) (by decide)
    witnessQuery (by decide) "15" "10" (by decide) (by decide)
    ⟨⟨some "hi", some "10", some "u1"⟩, by decide, "10", by decide, by decide⟩).1

theorem foldl_add_init {α : Type} (f : α → Nat) (l : List α) :
    ∀ a : Nat, l.foldl (fun acc x => acc + f x) a = a + sumBy f l := by
  induction l with
  | nil => intro a; simp [sumBy]
  | cons x xs ih =>
    intro a
    simp only [List.foldl_cons, sumBy]
    rw [ih (a + f x), ih (0 + f x)]
    omega

theorem sumBy_cons {α : Type} (f : α → Nat) (x : α) (l : List α) :
    sumBy f (x :: l) = f x + sumBy f l := by
  simp only [sumBy, List.foldl_cons]
  rw [foldl_add_init f l (0 + f x), foldl_add_init f l 0]
  omega

theorem sumBy_append {α : Type} (f : α → Nat) (l1 l2 : List α) :
    sumBy f (l1 ++ l2) = sumBy f l1 + sumBy f l2 := by
  induction l1 with
  | nil => simp [sumBy]
  | cons x xs ih => simp only [List.cons_append, sumBy_cons, ih]; omega

theorem sumBy_eq_sum_map {α : Type} (f : α → Nat) (l : List α) :
    sumBy f l = (l.map f).sum := by
  induction l with
  | nil => rfl
  | cons x xs ih => simp [sumBy_cons, ih]

theorem sumBy_perm {α : Type} (f : α → Nat) {l1 l2 : List α} (h : l1.Perm l2) :
    sumBy f l1 = sumBy f l2 := by
  rw [sumBy_eq_sum_map, sumBy_eq_sum_map]
  exact List.Perm.sum_eq (List.Perm.map f h)

theorem insertSorted_perm {α : Type} (le : α → α → Bool) (x : α) (l : List α) :
    (insertSorted le x l).Perm (x :: l) := by
  induction l with
  | nil => exact List.Perm.refl _
  | cons y ys ih =>
    by_cases h : le x y
    · simp [insertSorted, h]
    · simp only [insertSorted, h, Bool.false_eq_true, if_false, ite_false]
      exact (List.Perm.cons y ih).trans (List.Perm.swap x y ys)

theorem sortBy_perm {α : Type} (le : α → α → Bool) (l : List α) :
    (sortBy le l).Perm l := by
  induction l with
  | nil => exact List.Perm.refl _
  | cons x xs ih =>
    exact (insertSorted_perm le x (sortBy le xs)).trans (List.Perm.cons x ih)

theorem scanFoldl_fileAggs (cache : List (String × List Query)) (files : List ScanFile) :
    ∀ r0 : ScanResult, (files.foldl (scanStep cache) r0).fileAggs
      = r0.fileAggs ++ files.flatMap (fileContribution cache) := by
  induction files with
  | nil => intro r0; simp
  | cons f fs ih =>
    intro r0
    simp only [List.foldl_cons, ih, List.flatMap_cons, scanStep]
    simp [List.append_assoc]

theorem scanFoldl_newCache (cache : List (String × List Query)) (files : List ScanFile) :
    ∀ r0 : ScanResult, (files.foldl (scanStep cache) r0).newCache
      = (files.filterMap (fun f => (processFile cache f).record)).foldl
          (fun m p => insertLWW p.1 p.2 m) r0.newCache := by
  induction files with
  | nil => intro r0; simp
  | cons f fs ih =>
    intro r0
    simp only [List.foldl_cons, ih, List.filterMap_cons]
    cases hr : (processFile cache f).record with
    | none => simp [scanStep, hr]
    | some kqs => simp [scanStep, hr]

theorem scanFoldl_parseCount (cache : List (String × List Query)) (files : List ScanFile) :
    ∀ r0 : ScanResult, (files.foldl (scanStep cache) r0).parseCount
      = r0.parseCount + sumBy (fun f => if (processFile cache f).parsed then 1 else 0) files := by
  induction files with
  | nil => intro r0; simp [sumBy]
  | cons f fs ih =>
    intro r0
    simp only [List.foldl_cons, ih, sumBy_cons, scanStep]
    omega

/- A file that contributes no session data to aggregation. -/
def noSessionData (cache : List (String × List Query)) (f : ScanFile) : Prop :=
  (processFile cache f).queries = none ∨ (processFile cache f).queries = some []

theorem fileContribution_empty (cache : List (String × List Query)) (f : ScanFile)
    (h : noSessionData cache f) : fileContribution cache f = [] := by
  rcases h with h | h <;> simp [fileContribution, h]

theorem aggregate_nil (hist : String → Option String) : aggregate hist [] = _empty_result := by
  rfl

/-- C8: with the projects root absent, or present but holding no parsable
session data, parse_all_sessions returns the well-defined empty snapshot:
every collection empty and every totals field zero, including
totalSessions, totalTokens and cacheHitRate. -/
theorem empty_inputs_empty_snapshot (tree : Option (List ScanFile))
    (loadedCache : List (String × List Query)) (hist : String → Option String)
    (force : Bool)
    (h : tree = none ∨ ∃ files, tree = some files ∧ ∀ f ∈ files,
      noSessionData (if force then [] else loadedCache) f) :
    (parse_all_sessions tree loadedCache hist force).1 = _empty_result
    ∧ _empty_result.totals.totalSessions = 0
    ∧ _empty_result.totals.totalTokens = 0
    ∧ _empty_result.totals.cacheHitRate = 0
    ∧ _empty_result.sessions = [] ∧ _empty_result.dailyUsage = []
    ∧ _empty_result.modelBreakdown = [] ∧ _empty_result.topPrompts = []
    ∧ _empty_result.projects = [] ∧ _empty_result.toolStats = [] := by
  refine ⟨?_, rfl, rfl, rfl, rfl, rfl, rfl, rfl, rfl, rfl⟩
  rcases h with h | ⟨files, htree, hfiles⟩
  · subst h; rfl
  · subst htree
    have hbind : files.flatMap (fileContribution (if force then [] else loadedCache)) = [] := by
      induction files with
      | nil => rfl
      | cons f fs ih =>
        simp only [List.flatMap_cons]
        rw [fileContribution_empty _ _ (hfiles f (List.mem_cons_self f fs)),
          ih (fun g hg => hfiles g (List.mem_cons_of_mem f hg))]
        rfl
    simp only [parse_all_sessions, scanFiles]
    rw [scanFoldl_fileAggs]
    simp only [hbind]
    exact aggregate_nil hist

/-- Witness for C8 at the absent-directory input. -/
theorem empty_inputs_empty_snapshot_witness :
    (parse_all_sessions none [] (fun _ => none) false).1 = _empty_result :=
  (empty_inputs_empty_snapshot none [] (fun _ => none) false (Or.inl rfl)).1

theorem sumBy_congr {α : Type} (f g : α → Nat) (l : List α) (h : ∀ x ∈ l, f x = g x) :
    sumBy f l = sumBy g l := by
  induction l with
  | nil => rfl
  | cons x xs ih =>
    rw [sumBy_cons, sumBy_cons, h x (List.mem_cons_self x xs),
      ih (fun y hy => h y (List.mem_cons_of_mem x hy))]

theorem sumBy_add {α : Type} (f g : α → Nat) (l : List α) :
    sumBy (fun x => f x + g x) l = sumBy f l + sumBy g l := by
  induction l with
  | nil => rfl
  | cons x xs ih => rw [sumBy_cons, sumBy_cons, sumBy_cons, ih]; omega

theorem sumBy_map {α β : Type} (g : β → Nat) (h : α → β) (l : List α) :
    sumBy g (l.map h) = sumBy (fun x => g (h x)) l := by
  induction l with
  | nil => rfl
  | cons x xs ih => rw [List.map_cons, sumBy_cons, sumBy_cons, ih]

theorem sumBy_updateAList {α : Type} (g : α → Nat) (k : String) (upd : α → α) (zero : α)
    (t : Nat) (hupd : ∀ v, g (upd v) = g v + t) (hzero : g zero = 0) :
    ∀ m : List (String × α),
      sumBy (fun p => g p.2) (updateAList k upd zero m) = sumBy (fun p => g p.2) m + t := by
  intro m
  induction m with
  | nil => simp [updateAList, sumBy_cons, sumBy, hupd, hzero]
  | cons p rest ih =>
    by_cases h : p.1 = k
    · simp only [updateAList, if_pos h, sumBy_cons]
      rw [hupd p.2]
      omega
    · simp only [updateAList, if_neg h, sumBy_cons, ih]
      omega

theorem aggFold_sessions (hist : String → Option String) (files : List FileAgg) :
    ∀ st : AggState, (files.foldl (stepFile hist) st).sessions
      = st.sessions ++ files.map (sessionOf hist) := by
  induction files with
  | nil => intro st; simp
  | cons fa fs ih =>
    intro st
    simp only [List.foldl_cons, ih, List.map_cons]
    show (st.sessions ++ [sessionOf hist fa]) ++ fs.map (sessionOf hist) = _
    simp [List.append_assoc]

theorem aggFold_daily (hist : String → Option String) (files : List FileAgg) :
    ∀ st : AggState, (∀ fa ∈ files, sessionDateOf fa.queries ≠ "unknown") →
      sumBy (fun p => p.2.totalTokens) (files.foldl (stepFile hist) st).dailyMap
        = sumBy (fun p => p.2.totalTokens) st.dailyMap
          + sumBy (fun fa => fileTotalTokens fa.queries) files := by
  induction files with
  | nil => intro st _; simp [sumBy]
  | cons fa fs ih =>
    intro st hd
    simp only [List.foldl_cons]
    rw [ih _ (fun g hg => hd g (List.mem_cons_of_mem _ hg))]
    have hdate := hd fa (List.mem_cons_self _ _)
    have hstep : (stepFile hist st fa).dailyMap
        = updateAList (sessionDateOf fa.queries) (dailyAddOf fa)
            (zeroDaily (sessionDateOf fa.queries)) st.dailyMap := by
      simp [stepFile, hdate]
    rw [hstep, sumBy_updateAList Daily.totalTokens _ _ _ (fileTotalTokens fa.queries)
      (fun d => rfl) rfl st.dailyMap, sumBy_cons]
    omega

theorem modelFoldFile_sum (qs : List Query)
    (hq : ∀ q ∈ qs, ¬ (q.model = "<synthetic>" ∨ q.model = "unknown")) :
    ∀ mm : List (String × ModelAgg),
      sumBy (fun p => p.2.totalTokens) (modelFoldFile qs mm)
        = sumBy (fun p => p.2.totalTokens) mm + sumBy (·.totalTokens) qs := by
  induction qs with
  | nil => intro mm; simp [modelFoldFile, sumBy]
  | cons q qs ih =>
    intro mm
    have hq0 := hq q (List.mem_cons_self q qs)
    have hstep : modelFoldFile (q :: qs) mm
        = modelFoldFile qs (updateAList q.model (addModelQ q) (zeroModel q.model) mm) := by
      simp [modelFoldFile, hq0]
    rw [hstep, ih (fun p hp => hq p (List.mem_cons_of_mem q hp)),
      sumBy_updateAList ModelAgg.totalTokens _ _ _ q.totalTokens (fun v => rfl) rfl mm,
      sumBy_cons]
    omega

theorem fileTotalTokens_eq (qs : List Query)
    (h : ∀ q ∈ qs, q.totalTokens
      = q.inputTokens + q.cacheCreationTokens + q.cacheReadTokens + q.outputTokens) :
    sumBy (·.totalTokens) qs = fileTotalTokens qs := by
  induction qs with
  | nil => rfl
  | cons q qs ih =>
    have h0 := h q (List.mem_cons_self q qs)
    have hrest := ih (fun p hp => h p (List.mem_cons_of_mem q hp))
    simp only [fileTotalTokens, fileInput, fileCacheCreate, fileCacheRead, fileOutput,
      sumBy_cons] at hrest ⊢
    omega

theorem aggFold_model (hist : String → Option String) (files : List FileAgg) :
    ∀ st : AggState,
      (∀ fa ∈ files, ∀ q ∈ fa.queries,
        q.totalTokens = q.inputTokens + q.cacheCreationTokens + q.cacheReadTokens + q.outputTokens
        ∧ ¬ (q.model = "<synthetic>" ∨ q.model = "unknown")) →
      sumBy (fun p => p.2.totalTokens) (files.foldl (stepFile hist) st).modelMap
        = sumBy (fun p => p.2.totalTokens) st.modelMap
          + sumBy (fun fa => fileTotalTokens fa.queries) files := by
  induction files with
  | nil => intro st _; simp [sumBy]
  | cons fa fs ih =>
    intro st hq
    simp only [List.foldl_cons]
    rw [ih _ (fun g hg => hq g (List.mem_cons_of_mem _ hg))]
    have hstep : (stepFile hist st fa).modelMap = modelFoldFile fa.queries st.modelMap := rfl
    have hfa := hq fa (List.mem_cons_self _ _)
    rw [hstep, modelFoldFile_sum fa.queries (fun q hq2 => (hfa q hq2).2) st.modelMap,
      fileTotalTokens_eq fa.queries (fun q hq2 => (hfa q hq2).1), sumBy_cons]
    omega

/-- C1 (amended): totals.totalTokens always equals the sum of totalTokens
over the emitted sessions; the sums over the daily rollups and over the
model rollups also agree with it provided every emitted session has a known
date and every query carries a known, non-synthetic model with a consistent
totalTokens field.  (The counterexample shows both provisos are necessary:
a session with no timestamps is skipped by the daily rollup, and a query
with the default "unknown" model is skipped by the model rollup.) -/
theorem rollup_consistency (hist : String → Option String) (files : List FileAgg)
    (hq : ∀ fa ∈ files, ∀ q ∈ fa.queries,
      q.totalTokens = q.inputTokens + q.cacheCreationTokens + q.cacheReadTokens + q.outputTokens
      ∧ ¬ (q.model = "<synthetic>" ∨ q.model = "unknown"))
    (hd : ∀ fa ∈ files, sessionDateOf fa.queries ≠ "unknown") :
    (aggregate hist files).totals.totalTokens
        = sumBy Session.totalTokens (aggregate hist files).sessions
    ∧ (aggregate hist files).totals.totalTokens
        = sumBy Daily.totalTokens (aggregate hist files).dailyUsage
    ∧ (aggregate hist files).totals.totalTokens
        = sumBy ModelAgg.totalTokens (aggregate hist files).modelBreakdown := by
  have hS : ((aggregate hist files).sessions).Perm (files.map (sessionOf hist)) := by
    have h1 : (aggregate hist files).sessions
        = sortBy (fun a b => decide (b.totalTokens ≤ a.totalTokens))
            ((files.foldl (stepFile hist) initAggState).sessions) := rfl
    rw [h1, aggFold_sessions]
    simpa using sortBy_perm (fun a b => decide (b.totalTokens ≤ a.totalTokens))
      (files.map (sessionOf hist))
  have htot : (aggregate hist files).totals.totalTokens
      = sumBy Session.inputTokens (aggregate hist files).sessions
        + sumBy Session.outputTokens (aggregate hist files).sessions
        + sumBy Session.cacheCreationTokens (aggregate hist files).sessions
        + sumBy Session.cacheReadTokens (aggregate hist files).sessions := rfl
  have h_in : sumBy Session.inputTokens (aggregate hist files).sessions
      = sumBy (fun fa => fileInput fa.queries) files :=
    (sumBy_perm _ hS).trans (sumBy_map _ _ _)
  have h_out : sumBy Session.outputTokens (aggregate hist files).sessions
      = sumBy (fun fa => fileOutput fa.queries) files :=
    (sumBy_perm _ hS).trans (sumBy_map _ _ _)
  have h_cc : sumBy Session.cacheCreationTokens (aggregate hist files).sessions
      = sumBy (fun fa => fileCacheCreate fa.queries) files :=
    (sumBy_perm _ hS).trans (sumBy_map _ _ _)
  have h_cr : sumBy Session.cacheReadTokens (aggregate hist files).sessions
      = sumBy (fun fa => fileCacheRead fa.queries) files :=
    (sumBy_perm _ hS).trans (sumBy_map _ _ _)
  have h_sess : sumBy Session.totalTokens (aggregate hist files).sessions
      = sumBy (fun fa => fileTotalTokens fa.queries) files :=
    (sumBy_perm _ hS).trans (sumBy_map _ _ _)
  have h_split1 : sumBy (fun fa => fileTotalTokens fa.queries) files
      = sumBy (fun fa => fileInput fa.queries + fileCacheCreate fa.queries
          + fileCacheRead fa.queries) files
        + sumBy (fun fa => fileOutput fa.queries) files :=
    sumBy_add _ _ files
  have h_split2 : sumBy (fun fa => fileInput fa.queries + fileCacheCreate fa.queries
          + fileCacheRead fa.queries) files
      = sumBy (fun fa => fileInput fa.queries + fileCacheCreate fa.queries) files
        + sumBy (fun fa => fileCacheRead fa.queries) files :=
    sumBy_add _ _ files
  have h_split3 : sumBy (fun fa => fileInput fa.queries + fileCacheCreate fa.queries) files
      = sumBy (fun fa => fileInput fa.queries) files
        + sumBy (fun fa => fileCacheCreate fa.queries) files :=
    sumBy_add _ _ files
  have h_daily : sumBy Daily.totalTokens (aggregate hist files).dailyUsage
      = sumBy (fun fa => fileTotalTokens fa.queries) files := by
    have h1 : (aggregate hist files).dailyUsage
        = sortBy (fun a b => strLE a.date b.date)
            (((files.foldl (stepFile hist) initAggState).dailyMap).map (·.2)) := rfl
    rw [h1]
    rw [sumBy_perm Daily.totalTokens (sortBy_perm _ _)]
    rw [sumBy_map Daily.totalTokens (fun p : String × Daily => p.2)
      ((files.foldl (stepFile hist) initAggState).dailyMap)]
    have h2 := aggFold_daily hist files initAggState hd
    simpa [sumBy, initAggState] using h2
  have h_model : sumBy ModelAgg.totalTokens (aggregate hist files).modelBreakdown
      = sumBy (fun fa => fileTotalTokens fa.queries) files := by
    have h1 : (aggregate hist files).modelBreakdown
        = sortBy (fun a b => decide (b.totalTokens ≤ a.totalTokens))
            (((files.foldl (stepFile hist) initAggState).modelMap).map (·.2)) := rfl
    rw [h1]
    rw [sumBy_perm ModelAgg.totalTokens (sortBy_perm _ _)]
    rw [sumBy_map ModelAgg.totalTokens (fun p : String × ModelAgg => p.2)
      ((files.foldl (stepFile hist) initAggState).modelMap)]
    have h2 := aggFold_model hist files initAggState hq
    simpa [sumBy, initAggState] using h2
  refine ⟨?_, ?_, ?_⟩
  · omega
  · omega
  · omega

/- A parsable assistant record with usage but no model and no timestamp:
   its query gets model "unknown" and a session date "unknown". -/
def asstNoTsNoModel : RawEntry :=
  ⟨false, "assistant", some ⟨some "assistant", some "m9", none, some ⟨1, 0, 0, 0⟩,
    Content.other⟩, none, none, false⟩

def fileNoTsNoModel : ScanFile := ⟨"proj", "sess1", some "k0", some [some asstNoTsNoModel]⟩

/-- C1 counterexample: a completed scan over one parsable file whose only
assistant record lacks model and timestamp yields totals.totalTokens = 1
(matching the session sum) while the daily rollups and the model rollups
both sum to 0 — the three cross-checks do not agree. -/
theorem rollup_consistency_counterexample :
    (parse_all_sessions (some [fileNoTsNoModel]) [] (fun _ => none) false).1.totals.totalTokens
      = 1
    ∧ sumBy Session.totalTokens
        (parse_all_sessions (some [fileNoTsNoModel]) [] (fun _ => none) false).1.sessions = 1
    ∧ sumBy Daily.totalTokens
        (parse_all_sessions (some [fileNoTsNoModel]) [] (fun _ => none) false).1.dailyUsage = 0
    ∧ sumBy ModelAgg.totalTokens
        (parse_all_sessions (some [fileNoTsNoModel]) [] (fun _ => none) false).1.modelBreakdown
      = 0 := by
  decide

def histNone : String → Option String := fun _ => none

def fileAggW : FileAgg :=
  ⟨"proj", "s1", extract_session_data [asstEntryAt "2024-01-02T10:00"]
    [userEntryAt "2024-01-02T09:00"]⟩

/-- Witness for C1 (amended) at a concrete one-file aggregation. -/
theorem rollup_consistency_witness :
    (aggregate histNone [fileAggW]).totals.totalTokens
        = sumBy Session.totalTokens (aggregate histNone [fileAggW]).sessions
    ∧ (aggregate histNone [fileAggW]).totals.totalTokens
        = sumBy Daily.totalTokens (aggregate histNone [fileAggW]).dailyUsage
    ∧ (aggregate histNone [fileAggW]).totals.totalTokens
        = sumBy ModelAgg.totalTokens (aggregate histNone [fileAggW]).modelBreakdown :=
  rollup_consistency histNone [fileAggW] (by decide) (by decide)

theorem mem_keys_foldIns {α : Type} (l : List (String × α)) :
    ∀ (init : List (String × α)) (k : String),
      k ∈ keysOf (l.foldl (fun m p => insertLWW p.1 p.2 m) init)
        ↔ k ∈ keysOf init ∨ ∃ p ∈ l, p.1 = k := by
  induction l with
  | nil => intro init k; simp
  | cons p rest ih =>
    intro init k
    simp only [List.foldl_cons]
    rw [ih]
    rw [mem_keysOf_insertLWW]
    constructor
    · rintro ((h | h) | h)
      · exact Or.inr ⟨p, List.mem_cons_self p rest, h.symm⟩
      · exact Or.inl h
      · obtain ⟨q, hq, hqk⟩ := h
        exact Or.inr ⟨q, List.mem_cons_of_mem p hq, hqk⟩
    · rintro (h | ⟨q, hq, hqk⟩)
      · exact Or.inl (Or.inr h)
      · rcases List.mem_cons.mp hq with hq | hq
        · subst hq
          exact Or.inl (Or.inl hqk.symm)
        · exact Or.inr ⟨q, hq, hqk⟩

theorem lookupA_none_of_not_mem_keys {α : Type} (k : String) (m : List (String × α))
    (h : k ∉ keysOf m) : lookupA k m = none := by
  induction m with
  | nil => rfl
  | cons p rest ih =>
    obtain ⟨a, v⟩ := p
    simp only [keysOf, List.map_cons, List.mem_cons, not_or] at h
    have h1 : ¬ a = k := fun hh => h.1 hh.symm
    simp only [lookupA, if_neg h1]
    exact ih (by simpa [keysOf] using h.2)

theorem lookupA_some_of_mem_keys {α : Type} (k : String) (m : List (String × α))
    (h : k ∈ keysOf m) : ∃ v, lookupA k m = some v := by
  induction m with
  | nil => simp [keysOf] at h
  | cons p rest ih =>
    by_cases hp : p.1 = k
    · exact ⟨p.2, by simp [lookupA, hp]⟩
    · simp only [keysOf, List.map_cons, List.mem_cons] at h
      rcases h with h | h
      · exact absurd h.symm hp
      · obtain ⟨v, hv⟩ := ih (by simpa [keysOf] using h)
        exact ⟨v, by simp [lookupA, hp, hv]⟩

/- A recorded cache entry always carries the file's own fingerprint. -/
theorem record_ck (cache : List (String × List Query)) (g : ScanFile) (k : String)
    (qs : List Query) (h : (processFile cache g).record = some (k, qs)) :
    g.ck = some k := by
  cases hck : g.ck with
  | none =>
    exfalso
    cases hpl : g.plines with
    | none => simp [processFile, hck, hpl] at h
    | some ls =>
      by_cases he : (parse_jsonl_file ls).assistantEntries = []
      · simp [processFile, hck, hpl, he] at h
      · simp [processFile, hck, hpl, he] at h
  | some k2 =>
    cases hlook : lookupA k2 cache with
    | some qs2 =>
      simp only [processFile, hck, hlook] at h
      injection h with h
      have h2 : k2 = k := congrArg Prod.fst h
      rw [h2]
    | none =>
      cases hpl : g.plines with
      | none => simp [processFile, hck, hlook, hpl] at h
      | some ls =>
        by_cases he : (parse_jsonl_file ls).assistantEntries = []
        · simp [processFile, hck, hlook, hpl, he] at h
        · simp only [processFile, hck, hlook, hpl, he, if_neg he] at h
          injection h with h
          have h2 : k2 = k := congrArg Prod.fst h
          rw [h2]

/-- C6 (amended): a fingerprint hit reuses the stored query list verbatim,
without parsing, and copies the fingerprint forward; a fingerprint miss
re-parses the file and records the extraction result under the fingerprint
provided the parse succeeds with at least one assistant record; and the new
cache snapshot holds exactly the fingerprints recorded by the files of the
current scan.  (The original claim said every missed file's result is
recorded; the counterexample shows a parsable file with zero assistant
records is re-parsed but never recorded.) -/
theorem cache_scan_behavior (cache : List (String × List Query)) (files : List ScanFile) :
    (∀ f ∈ files, ∀ k qs, f.ck = some k → lookupA k cache = some qs →
        processFile cache f = ⟨some qs, some (k, qs), false⟩)
    ∧ (∀ f ∈ files, ∀ k ls, f.ck = some k → lookupA k cache = none → f.plines = some ls →
        (processFile cache f).parsed = true
        ∧ ((parse_jsonl_file ls).assistantEntries ≠ [] →
            processFile cache f
              = ⟨some (extract_session_data (parse_jsonl_file ls).assistantEntries
                    (parse_jsonl_file ls).userMessages),
                  some (k, extract_session_data (parse_jsonl_file ls).assistantEntries
                    (parse_jsonl_file ls).userMessages), true⟩))
    ∧ ∀ k, k ∈ keysOf (scanFiles cache files).newCache
        ↔ ∃ f ∈ files, ∃ qs, (processFile cache f).record = some (k, qs) := by
  refine ⟨?_, ?_, ?_⟩
  · intro f _ k qs hk hlook
    simp [processFile, hk, hlook]
  · intro f _ k ls hk hlook hls
    constructor
    · by_cases he : (parse_jsonl_file ls).assistantEntries = [] <;>
        simp [processFile, hk, hlook, hls, he]
    · intro he
      simp [processFile, hk, hlook, hls, he]
  · intro k
    have h1 : (scanFiles cache files).newCache
        = (files.filterMap (fun f => (processFile cache f).record)).foldl
            (fun m p => insertLWW p.1 p.2 m) [] := by
      rw [scanFiles, scanFoldl_newCache]
    rw [h1, mem_keys_foldIns]
    simp only [keysOf, List.map_nil, List.not_mem_nil, false_or]
    constructor
    · rintro ⟨p, hp, hpk⟩
      rw [List.mem_filterMap] at hp
      obtain ⟨f, hf, hrec⟩ := hp
      exact ⟨f, hf, p.2, by rw [hrec]; rw [show p = (k, p.2) from by rw [← hpk]]⟩
    · rintro ⟨f, hf, qs, hrec⟩
      exact ⟨(k, qs), List.mem_filterMap.mpr ⟨f, hf, hrec⟩, rfl⟩

/- A parsable session file holding only a user record: parse succeeds with
   zero assistant records. -/
def userOnlyFile : ScanFile := ⟨"proj", "sess2", some "k2", some [some (userEntryAt "10")]⟩

/-- C6 counterexample: a fingerprint miss on a parsable file with zero
assistant records re-parses the file but records nothing, so the new cache
snapshot does not contain the fingerprint of this touched file. -/
theorem cache_scan_counterexample :
    lookupA "k2" ([] : List (String × List Query)) = none
    ∧ (processFile [] userOnlyFile).parsed = true
    ∧ (processFile [] userOnlyFile).record = none
    ∧ keysOf (scanFiles [] [userOnlyFile]).newCache = [] := by
  decide

/-- Witness for C6 (amended): a concrete fingerprint hit is reused verbatim
without parsing. -/
theorem cache_scan_behavior_witness :
    processFile [("k1", [defaultQuery])] (ScanFile.mk "p" "s" (some "k1") none)
      = ⟨some [defaultQuery], some ("k1", [defaultQuery]), false⟩ :=
  (cache_scan_behavior [("k1", [defaultQuery])] [ScanFile.mk "p" "s" (some "k1") none]).1
    (ScanFile.mk "p" "s" (some "k1") none) (by decide) "k1" [defaultQuery] rfl (by decide)

/-- C10: a cache-missed file whose parse succeeds with zero assistant
records is skipped entirely: it contributes no session, records no
fingerprint in the new cache snapshot, and is parsed again on a subsequent
scan that loads that snapshot, even though the file is unchanged. -/
theorem zero_assistant_file_skipped (cache : List (String × List Query))
    (files : List ScanFile) (f : ScanFile) (k : String) (ls : List (Option RawEntry))
    (hf : f ∈ files) (hk : f.ck = some k) (hmiss : lookupA k cache = none)
    (hls : f.plines = some ls) (hempty : (parse_jsonl_file ls).assistantEntries = [])
    (huniq : ∀ g ∈ files, g.ck = some k → g = f) :
    (processFile cache f).queries = none
    ∧ (processFile cache f).record = none
    ∧ (processFile cache f).parsed = true
    ∧ fileContribution cache f = []
    ∧ k ∉ keysOf (scanFiles cache files).newCache
    ∧ (processFile (scanFiles cache files).newCache f).parsed = true := by
  have hproc : processFile cache f = ⟨none, none, true⟩ := by
    simp [processFile, hk, hmiss, hls, hempty]
  have hnotmem : k ∉ keysOf (scanFiles cache files).newCache := by
    intro hmem
    rw [(cache_scan_behavior cache files).2.2 k] at hmem
    obtain ⟨g, hg, qs, hrec⟩ := hmem
    have hgk : g.ck = some k := record_ck cache g k qs hrec
    have hgf : g = f := huniq g hg hgk
    rw [hgf, hproc] at hrec
    cases hrec
  refine ⟨by rw [hproc], by rw [hproc], by rw [hproc],
    by simp [fileContribution, hproc], hnotmem, ?_⟩
  have hlook2 : lookupA k (scanFiles cache files).newCache = none :=
    lookupA_none_of_not_mem_keys k _ hnotmem
  simp [processFile, hk, hlook2, hls, hempty]

/-- Witness for C10 at a concrete one-file scan. -/
theorem zero_assistant_file_skipped_witness :
    (processFile [] userOnlyFile).queries = none
    ∧ "k2" ∉ keysOf (scanFiles [] [userOnlyFile]).newCache := by
  have h := zero_assistant_file_skipped [] [userOnlyFile] userOnlyFile "k2"
    [some (userEntryAt "10")] (by decide) rfl rfl rfl (by decide) (by decide)
  exact ⟨h.1, h.2.2.2.2.1⟩

theorem lastAssoc_none_of_keys {α : Type} (k : String) (l : List (String × α))
    (h : ∀ p ∈ l, ¬ p.1 = k) : lastAssoc k l = none := by
  induction l with
  | nil => rfl
  | cons p rest ih =>
    simp only [lastAssoc, ih (fun q hq => h q (List.mem_cons_of_mem p hq))]
    simp [h p (List.mem_cons_self p rest)]

/- Under pairwise-distinct fingerprints, the record stream holds exactly
   one entry per fingerprint: the one of the unique file carrying it. -/
theorem lastAssoc_records (c0 : List (String × List Query)) (files : List ScanFile) :
    ∀ k : String, (files.filterMap ScanFile.ck).Nodup →
      ∀ f ∈ files, f.ck = some k →
        lastAssoc k (files.filterMap (fun g => (processFile c0 g).record))
          = ((processFile c0 f).record).map (·.2) := by
  induction files with
  | nil => intro k _ f hf; simp at hf
  | cons g fs ih =>
    intro k hnodup f hf hk
    have hnodup2 : (fs.filterMap ScanFile.ck).Nodup := by
      cases hgk : g.ck with
      | none => simpa [List.filterMap_cons, hgk] using hnodup
      | some k2 =>
        have := hnodup
        simp only [List.filterMap_cons, hgk, List.nodup_cons] at this
        exact this.2
    rcases List.mem_cons.mp hf with hfg | hfs
    · subst hfg
      have hknotin : ∀ g2 ∈ fs, ¬ g2.ck = some k := by
        intro g2 hg2 hg2k
        have hmem : k ∈ fs.filterMap ScanFile.ck :=
          List.mem_filterMap.mpr ⟨g2, hg2, hg2k⟩
        have := hnodup
        simp only [List.filterMap_cons, hk, List.nodup_cons] at this
        exact this.1 hmem
      have hrest_none : lastAssoc k (fs.filterMap (fun g2 => (processFile c0 g2).record))
          = none := by
        apply lastAssoc_none_of_keys
        intro p hp hpk
        rw [List.mem_filterMap] at hp
        obtain ⟨g2, hg2, hrec⟩ := hp
        have := record_ck c0 g2 p.1 p.2 (by rw [hrec])
        exact hknotin g2 hg2 (hpk ▸ this)
      cases hrec : (processFile c0 f).record with
      | none =>
        simp only [List.filterMap_cons, hrec]
        rw [hrest_none]
        rfl
      | some p =>
        have hpk : p.1 = k := by
          have := record_ck c0 f p.1 p.2 (by rw [hrec])
          rw [hk] at this
          injection this with h2
          exact h2.symm
        simp only [List.filterMap_cons, hrec, lastAssoc, hrest_none, hpk]
        simp
    · have hgk_ne : ¬ g.ck = some k := by
        intro hgk
        have hmem : k ∈ fs.filterMap ScanFile.ck :=
          List.mem_filterMap.mpr ⟨f, hfs, hk⟩
        have := hnodup
        simp only [List.filterMap_cons, hgk, List.nodup_cons] at this
        exact this.1 hmem
      have ihres := ih k hnodup2 f hfs hk
      cases hrec : (processFile c0 g).record with
      | none => simpa [List.filterMap_cons, hrec] using ihres
      | some p =>
        have hpk : ¬ p.1 = k := by
          intro hpk
          have := record_ck c0 g p.1 p.2 (by rw [hrec])
          exact hgk_ne (hpk ▸ this)
        simp only [List.filterMap_cons, hrec, lastAssoc, ihres]
        cases hm : ((processFile c0 f).record).map (·.2) with
        | none => simp [hpk]
        | some v => rfl

theorem lookup_newCache (c0 : List (String × List Query)) (files : List ScanFile)
    (hdist : (files.filterMap ScanFile.ck).Nodup) (f : ScanFile) (hf : f ∈ files)
    (k : String) (hk : f.ck = some k) :
    lookupA k (scanFiles c0 files).newCache = ((processFile c0 f).record).map (·.2) := by
  have h1 : (scanFiles c0 files).newCache
      = (files.filterMap (fun g => (processFile c0 g).record)).foldl
          (fun m p => insertLWW p.1 p.2 m) [] := by
    rw [scanFiles, scanFoldl_newCache]
  rw [h1, lookupA_foldIns, lastAssoc_records c0 files k hdist f hf hk]
  cases ((processFile c0 f).record).map (·.2) <;> rfl

/- Re-running the per-file body against the cache the first scan produced
   yields the same session data and the same cache record for every file. -/
theorem processFile_second_run (c0 : List (String × List Query)) (files : List ScanFile)
    (hdist : (files.filterMap ScanFile.ck).Nodup) (f : ScanFile) (hf : f ∈ files) :
    (processFile (scanFiles c0 files).newCache f).queries = (processFile c0 f).queries
    ∧ (processFile (scanFiles c0 files).newCache f).record = (processFile c0 f).record := by
  cases hck : f.ck with
  | none =>
    cases hpl : f.plines with
    | none => simp [processFile, hck, hpl]
    | some ls =>
      by_cases he : (parse_jsonl_file ls).assistantEntries = [] <;>
        simp [processFile, hck, hpl, he]
  | some k =>
    have hlook2 := lookup_newCache c0 files hdist f hf k hck
    cases hlook : lookupA k c0 with
    | some qs =>
      have hrec : (processFile c0 f).record = some (k, qs) := by
        simp [processFile, hck, hlook]
      rw [hrec] at hlook2
      simp at hlook2
      have hq : (processFile c0 f).queries = some qs := by
        simp [processFile, hck, hlook]
      constructor
      · rw [hq]; simp [processFile, hck, hlook2]
      · rw [hrec]; simp [processFile, hck, hlook2]
    | none =>
      cases hpl : f.plines with
      | none =>
        have hrec : (processFile c0 f).record = none := by
          simp [processFile, hck, hlook, hpl]
        rw [hrec] at hlook2
        simp [processFile, hck, hlook2, hlook, hpl]
      | some ls =>
        by_cases he : (parse_jsonl_file ls).assistantEntries = []
        · have hrec : (processFile c0 f).record = none := by
            simp [processFile, hck, hlook, hpl, he]
          rw [hrec] at hlook2
          simp [processFile, hck, hlook2, hlook, hpl, he]
        · have hrec : (processFile c0 f).record
              = some (k, extract_session_data (parse_jsonl_file ls).assistantEntries
                  (parse_jsonl_file ls).userMessages) := by
            simp [processFile, hck, hlook, hpl, he]
          rw [hrec] at hlook2
          simp at hlook2
          have hq : (processFile c0 f).queries
              = some (extract_session_data (parse_jsonl_file ls).assistantEntries
                  (parse_jsonl_file ls).userMessages) := by
            simp [processFile, hck, hlook, hpl, he]
          constructor
          · rw [hq]; simp [processFile, hck, hlook2]
          · rw [hrec]; simp [processFile, hck, hlook2]

theorem flatMap_congr_mem {α β : Type} (l : List α) (g1 g2 : α → List β)
    (h : ∀ x ∈ l, g1 x = g2 x) : l.flatMap g1 = l.flatMap g2 := by
  induction l with
  | nil => rfl
  | cons x xs ih =>
    simp only [List.flatMap_cons, h x (List.mem_cons_self x xs),
      ih (fun y hy => h y (List.mem_cons_of_mem x hy))]

theorem filterMap_congr_mem {α β : Type} (l : List α) (g1 g2 : α → Option β)
    (h : ∀ x ∈ l, g1 x = g2 x) : l.filterMap g1 = l.filterMap g2 := by
  induction l with
  | nil => rfl
  | cons x xs ih =>
    simp only [List.filterMap_cons, h x (List.mem_cons_self x xs),
      ih (fun y hy => h y (List.mem_cons_of_mem x hy))]

theorem sumBy_zero_of {α : Type} (f : α → Nat) (l : List α) (h : ∀ x ∈ l, f x = 0) :
    sumBy f l = 0 := by
  induction l with
  | nil => rfl
  | cons x xs ih =>
    rw [sumBy_cons, h x (List.mem_cons_self x xs),
      ih (fun y hy => h y (List.mem_cons_of_mem x hy))]

/-- C9 (amended): re-running parse_all_sessions over an unchanged tree with
the cache the first run persisted (fingerprints pairwise distinct, as the
path-qualified fingerprints of real files are) reproduces the same
aggregated snapshot and rewrites the same cache snapshot; and it performs
zero file re-parses provided every file was recorded in the first run's
cache.  (The counterexample shows the unconditional zero-re-parse claim is
false: a parsable file with zero assistant records is never recorded, so it
is re-parsed by every scan.) -/
theorem rescan_behavior (files : List ScanFile) (c0 : List (String × List Query))
    (hist : String → Option String)
    (hdist : (files.filterMap ScanFile.ck).Nodup) :
    (parse_all_sessions (some files)
        (parse_all_sessions (some files) c0 hist false).2.1 hist false).1
      = (parse_all_sessions (some files) c0 hist false).1
    ∧ (parse_all_sessions (some files)
        (parse_all_sessions (some files) c0 hist false).2.1 hist false).2.1
      = (parse_all_sessions (some files) c0 hist false).2.1
    ∧ ((∀ f ∈ files, ∃ k, f.ck = some k
          ∧ k ∈ keysOf (parse_all_sessions (some files) c0 hist false).2.1) →
        (parse_all_sessions (some files)
          (parse_all_sessions (some files) c0 hist false).2.1 hist false).2.2 = 0) := by
  have hc1 : (parse_all_sessions (some files) c0 hist false).2.1
      = (scanFiles c0 files).newCache := rfl
  have hcontrib : ∀ f ∈ files,
      fileContribution (scanFiles c0 files).newCache f = fileContribution c0 f := by
    intro f hf
    have h := (processFile_second_run c0 files hdist f hf).1
    simp only [fileContribution, h]
  have hrecords : ∀ f ∈ files,
      (processFile (scanFiles c0 files).newCache f).record = (processFile c0 f).record :=
    fun f hf => (processFile_second_run c0 files hdist f hf).2
  refine ⟨?_, ?_, ?_⟩
  · show aggregate hist (scanFiles (scanFiles c0 files).newCache files).fileAggs
      = aggregate hist (scanFiles c0 files).fileAggs
    congr 1
    rw [scanFiles, scanFiles, scanFoldl_fileAggs, scanFoldl_fileAggs]
    simp only [List.nil_append]
    exact flatMap_congr_mem files _ _ hcontrib
  · have hgen : ∀ c : List (String × List Query),
        (∀ f ∈ files, (processFile c f).record = (processFile c0 f).record) →
          (scanFiles c files).newCache = (scanFiles c0 files).newCache := by
      intro c hrec
      rw [scanFiles, scanFiles, scanFoldl_newCache, scanFoldl_newCache]
      rw [filterMap_congr_mem files _ _ hrec]
    exact hgen _ hrecords
  · intro hall
    have hgen : ∀ c : List (String × List Query),
        (∀ f ∈ files, ∃ k, f.ck = some k ∧ ∃ v, lookupA k c = some v) →
          (scanFiles c files).parseCount = 0 := by
      intro c hall2
      rw [scanFiles, scanFoldl_parseCount]
      simp only [Nat.zero_add]
      apply sumBy_zero_of
      intro f hf
      obtain ⟨k, hk, v, hv⟩ := hall2 f hf
      simp [processFile, hk, hv]
    refine hgen _ ?_
    intro f hf
    obtain ⟨k, hk, hmem⟩ := hall f hf
    rw [hc1] at hmem
    exact ⟨k, hk, lookupA_some_of_mem_keys k _ hmem⟩

/-- C9 counterexample: over a tree holding one parsable file with zero
assistant records, the second scan (loading the cache the first scan
persisted) performs one re-parse, not zero. -/
theorem rescan_counterexample :
    (parse_all_sessions (some [userOnlyFile])
        (parse_all_sessions (some [userOnlyFile]) [] histNone false).2.1 histNone false).2.2
      = 1 := by
  decide

/-- Witness for C9 (amended) at a concrete one-file tree whose file is
recorded by the first scan. -/
theorem rescan_behavior_witness :
    (parse_all_sessions (some [fileNoTsNoModel])
        (parse_all_sessions (some [fileNoTsNoModel]) [] histNone false).2.1 histNone false).2.2
      = 0 := by
  have h := rescan_behavior [fileNoTsNoModel] [] histNone (by decide)
  refine h.2.2 ?_
  intro f hf
  have hfe : f = fileNoTsNoModel := by simpa using hf
  subst hfe
  exact ⟨"k0", rfl, by decide⟩
